import Mathlib

/-!
Shallow embedding of the `annealingcollager` repository
(src/lab_image.rs, src/collager.rs) and verification of its
natural-language specification.

Numeric conventions: the Rust code computes with `f32`; this embedding
models `f32` arithmetic as exact real arithmetic (`ℝ`).  The generic
simulated-annealing engine is embedded generically over a linear ordered
field of energies so that concrete runs can be carried out over `ℚ`.
Randomness (the `fastrand` crate, external to the repository) is
modelled by explicit oracle arguments supplying the values drawn.
Panics (`unwrap` / `expect` / empty-range draws) are modelled by
`Option` / `Except` results.

The files `colors.rs` (Lab/Laba color model) and `point.rs` (2D vector
utility) of the repository are not available; the definitions below
that embed them are modelled from the spec and marked as such.
-/

/-- Modelled from the spec: the missing `point.rs` provides a
2D vector utility with component-wise arithmetic/map/zip over
coordinate pairs. -/
structure Point2 (α : Type) where
  x : α
  y : α
deriving DecidableEq

instance [Add α] : Add (Point2 α) := ⟨fun p q => ⟨p.x + q.x, p.y + q.y⟩⟩

instance [Sub α] : Sub (Point2 α) := ⟨fun p q => ⟨p.x - q.x, p.y - q.y⟩⟩

instance [Mul α] : Mul (Point2 α) := ⟨fun p q => ⟨p.x * q.x, p.y * q.y⟩⟩

instance [Div α] : Div (Point2 α) := ⟨fun p q => ⟨p.x / q.x, p.y / q.y⟩⟩

/-- Component-wise map (`Point2::map` of the missing `point.rs`). -/
def Point2.map (p : Point2 α) (f : α → β) : Point2 β := ⟨f p.x, f p.y⟩

/-- Modelled from the spec: the missing `colors.rs` provides the `Lab`
perceptual color type with channels `l`, `a`, `b`. -/
structure Lab where
  l : ℝ
  a : ℝ
  b : ℝ

instance : Inhabited Lab := ⟨⟨0, 0, 0⟩⟩

/-- Modelled from the spec: the missing `colors.rs` provides `Laba`,
i.e. `Lab` plus an alpha channel in `[0,1]`. -/
structure Laba where
  l : ℝ
  a : ℝ
  b : ℝ
  alpha : ℝ

instance : Inhabited Laba := ⟨⟨0, 0, 0, 0⟩⟩

/-- Modelled from the spec: `distance(x,y)` is the Euclidean norm over
channel differences (the true Euclidean form, not squared). -/
noncomputable def Lab.distance (p q : Lab) : ℝ :=
  Real.sqrt ((p.l - q.l) ^ 2 + (p.a - q.a) ^ 2 + (p.b - q.b) ^ 2)

/-- Modelled from the spec: `blend(base, top)` is the standard "over"
alpha composite applied directly to the Lab channels of an opaque base. -/
def Lab.blend (base : Lab) (top : Laba) : Lab :=
  ⟨top.l * top.alpha + base.l * (1 - top.alpha),
   top.a * top.alpha + base.a * (1 - top.alpha),
   top.b * top.alpha + base.b * (1 - top.alpha)⟩

/-- Modelled from the spec: `no_alpha` discards the alpha channel. -/
def Laba.no_alpha (p : Laba) : Lab := ⟨p.l, p.a, p.b⟩

/-- Rust `x as i32` on a float: truncation toward zero (saturation at the
i32 bounds is not modelled; all uses stay far inside them). -/
noncomputable def asI32 (v : ℝ) : ℤ := if v < 0 then -⌊-v⌋ else ⌊v⌋

/-- Rust `x as usize` on a float: truncation toward zero, negative
values saturating to `0`. -/
noncomputable def asUsize (v : ℝ) : ℕ := (asI32 v).toNat

/-- Rust `f32::round`: nearest integer, halves rounded away from zero. -/
noncomputable def rustRound (v : ℝ) : ℤ := if v < 0 then -⌊-v + 1 / 2⌋ else ⌊v + 1 / 2⌋

/-- Rust `Ord::clamp(lo, hi)` on integers (assumes `lo ≤ hi`). -/
def clampZ (v lo hi : ℤ) : ℤ := min (max v lo) hi

/-- Rust `f32::clamp(lo, hi)` (assumes `lo ≤ hi`). -/
noncomputable def clampR (v lo hi : ℝ) : ℝ := min (max v lo) hi

/-- `Indexer::to_position` (src/lab_image.rs): row-major index to
coordinate, for a grid of the given width. -/
def toPosition (w : ℕ) (index : ℕ) : Point2 ℤ := ⟨(index % w : ℕ), (index / w : ℕ)⟩

/-- `Indexer::to_index` (src/lab_image.rs): coordinate to row-major
index (the `as usize` casts are `Int.toNat`; only used in bounds). -/
def toIndex (w : ℕ) (position : Point2 ℤ) : ℕ :=
  position.x.toNat + position.y.toNat * w

/-- `GenericImage<T>` (src/lab_image.rs): a flat row-major pixel buffer
with its `Indexer` (width and height). -/
structure GenericImage (T : Type) where
  data : List T
  width : ℕ
  height : ℕ

/-- The invariant `data.len() == width * height` maintained by every
`GenericImage`-producing operation. -/
def GenericImage.Wf (img : GenericImage T) : Prop :=
  img.data.length = img.width * img.height

instance (img : GenericImage T) : Decidable img.Wf := by
  unfold GenericImage.Wf; infer_instance

/-- `GenericImage::from_raw` (src/lab_image.rs): builds the grid from a
flat buffer.  The source performs no validation whatsoever. -/
def GenericImage.from_raw (data : List T) (width height : ℕ) : GenericImage T :=
  ⟨data, width, height⟩

/-- `GenericImage::from_fn` (src/lab_image.rs). -/
def GenericImage.from_fn (width height : ℕ) (f : Point2 ℤ → T) : GenericImage T :=
  ⟨(List.range (width * height)).map (fun index => f (toPosition width index)),
   width, height⟩

/-- `GenericImage::repeat` (src/lab_image.rs). -/
def GenericImage.repeat (pixel : T) (width height : ℕ) : GenericImage T :=
  ⟨List.replicate (width * height) pixel, width, height⟩

/-- `GenericImage::map` (src/lab_image.rs). -/
def GenericImage.map (img : GenericImage T) (f : T → U) : GenericImage U :=
  ⟨img.data.map f, img.width, img.height⟩

/-- `GenericImage::size_point` (src/lab_image.rs). -/
def GenericImage.size_point (img : GenericImage T) : Point2 ℕ := ⟨img.width, img.height⟩

/-- `GenericImage::between` (src/lab_image.rs): `low ≤ p < high`
component-wise. -/
def between (low high position : Point2 ℤ) : Bool :=
  (decide (low.x ≤ position.x) && decide (position.x < high.x)) &&
  (decide (low.y ≤ position.y) && decide (position.y < high.y))

/-- `GenericImage::inbounds` (src/lab_image.rs). -/
def GenericImage.inbounds (img : GenericImage T) (position : Point2 ℤ) : Bool :=
  between ⟨0, 0⟩ ⟨(img.width : ℤ), (img.height : ℤ)⟩ position

/-- `GenericImage::get` (src/lab_image.rs): bounds-checked read; absent
outside `[0,w)×[0,h)`. -/
def GenericImage.get (img : GenericImage T) (position : Point2 ℤ) : Option T :=
  if img.inbounds position then img.data[toIndex img.width position]? else none

/-- The write half of `GenericImage::get_mut` (src/lab_image.rs) as used
by the compositing loops: `if let Some(p) = get_mut(pos) { *p = v }`. -/
def GenericImage.setPixel (img : GenericImage T) (position : Point2 ℤ) (v : T) :
    GenericImage T :=
  if img.inbounds position then
    ⟨img.data.set (toIndex img.width position) v, img.width, img.height⟩
  else img

/-- `GenericImage::resized_nearest` (src/lab_image.rs).  The unchecked
`self[scaled_position]` index is in bounds for well-formed non-empty
sources; out of that range the model reads the default pixel. -/
noncomputable def GenericImage.resized_nearest [Inhabited T] (img : GenericImage T)
    (size : Point2 ℕ) : GenericImage T :=
  let this_size := img.size_point
  let scale : Point2 ℝ := ⟨(this_size.x : ℝ) / (size.x : ℝ), (this_size.y : ℝ) / (size.y : ℝ)⟩
  GenericImage.from_fn size.x size.y (fun position =>
    let scaled_position : Point2 ℤ :=
      ⟨clampZ (asI32 ((position.x : ℝ) * scale.x)) 0 ((this_size.x : ℤ) - 1),
       clampZ (asI32 ((position.y : ℝ) * scale.y)) 0 ((this_size.y : ℤ) - 1)⟩
    (img.get scaled_position).getD default)

/-- `LabImage` (src/lab_image.rs). -/
abbrev LabImage := GenericImage Lab

/-- `LabaImage` (src/lab_image.rs). -/
abbrev LabaImage := GenericImage Laba

/-- The loop body of `LabImage::overlay` (src/lab_image.rs), recursing
over `other`'s pixels together with their row-major indices
(`pixels_positions`). -/
def overlayGo (otherWidth : ℕ) (position : Point2 ℤ) :
    List Laba → ℕ → LabImage → LabImage
  | [], _, acc => acc
  | pixel :: rest, index, acc =>
    let dest := position + toPosition otherWidth index
    let acc' := match acc.get dest with
      | some this_pixel => acc.setPixel dest (this_pixel.blend pixel)
      | none => acc
    overlayGo otherWidth position rest (index + 1) acc'

/-- `LabImage::overlay` (src/lab_image.rs): for every pixel of `other`,
alpha-blend onto `self` at `position + offset`, silently dropping
destinations outside bounds. -/
def LabImage.overlay (self : LabImage) (other : LabaImage) (position : Point2 ℤ) :
    LabImage :=
  overlayGo other.width position other.data 0 self

/-- The `rotate` closure of `LabImage::overlay_rotated`
(src/lab_image.rs): rotate `position` by `angle` about `origin`. -/
noncomputable def rotatePoint (origin : Point2 ℝ) (position : Point2 ℤ) (angle : ℝ) :
    Point2 ℝ :=
  let p : Point2 ℝ := ⟨(position.x : ℝ) - origin.x, (position.y : ℝ) - origin.y⟩
  ⟨Real.cos angle * p.x - Real.sin angle * p.y + origin.x,
   Real.sin angle * p.x + Real.cos angle * p.y + origin.y⟩

/-- The pivot `global_middle` of `LabImage::overlay_rotated`: `position`
plus half of `other`'s size. -/
noncomputable def globalMiddle (otherSize : Point2 ℕ) (position : Point2 ℤ) : Point2 ℝ :=
  ⟨(position.x : ℝ) + (otherSize.x : ℝ) / 2, (position.y : ℝ) + (otherSize.y : ℝ) / 2⟩

/-- The bounding box (`bb_low`, `bb_high`) of `LabImage::overlay_rotated`:
floor/ceil of the component-wise min/max of the four rotated corners of
the placement rectangle. -/
noncomputable def rotatedBB (otherSize : Point2 ℕ) (position : Point2 ℤ) (angle : ℝ) :
    Point2 ℤ × Point2 ℤ :=
  let gm := globalMiddle otherSize position
  let size : Point2 ℤ := ⟨(otherSize.x : ℤ), (otherSize.y : ℤ)⟩
  let r_ll := rotatePoint gm position angle
  let r_lh := rotatePoint gm (position + ⟨0, size.y⟩) angle
  let r_hl := rotatePoint gm (position + ⟨size.x, 0⟩) angle
  let r_hh := rotatePoint gm (position + size) angle
  (⟨⌊min r_ll.x (min r_lh.x (min r_hl.x r_hh.x))⌋,
    ⌊min r_ll.y (min r_lh.y (min r_hl.y r_hh.y))⌋⟩,
   ⟨⌈max r_ll.x (max r_lh.x (max r_hl.x r_hh.x))⌉,
    ⌈max r_ll.y (max r_lh.y (max r_hl.y r_hh.y))⌉⟩)

/-- The source coordinate sampled by `LabImage::overlay_rotated` for a
destination pixel: the destination is mapped by `rotate(global_middle,
·, angle)` — the same rotation that is applied to the corners — rounded
to the nearest integer, and shifted by `-position`. -/
noncomputable def rotSample (otherSize : Point2 ℕ) (position : Point2 ℤ) (angle : ℝ)
    (pixel_position : Point2 ℤ) : Point2 ℤ :=
  let r := rotatePoint (globalMiddle otherSize position) pixel_position angle
  ⟨rustRound r.x - position.x, rustRound r.y - position.y⟩

/-- The per-pixel update performed by the `pixels_between_mut` loop of
`LabImage::overlay_rotated` on the destination pixel at
`pixel_position`. -/
noncomputable def rotStep (other : LabaImage) (position : Point2 ℤ) (angle : ℝ)
    (bb : Point2 ℤ × Point2 ℤ) (pixel_position : Point2 ℤ) (pixel : Lab) : Lab :=
  if between bb.1 bb.2 pixel_position then
    match other.get (rotSample other.size_point position angle pixel_position) with
    | some other_pixel => pixel.blend other_pixel
    | none => pixel
  else pixel

/-- `pixels_between_mut` + `for_each` (src/lab_image.rs): update every
pixel of the buffer as a function of its row-major position. -/
def mapWithPosition (f : Point2 ℤ → Lab → Lab) (w : ℕ) :
    List Lab → ℕ → List Lab
  | [], _ => []
  | pixel :: rest, index => f (toPosition w index) pixel :: mapWithPosition f w rest (index + 1)

/-- `LabImage::overlay_rotated` (src/lab_image.rs). -/
noncomputable def LabImage.overlay_rotated (self : LabImage) (other : LabaImage)
    (position : Point2 ℤ) (angle : ℝ) : LabImage :=
  let bb := rotatedBB other.size_point position angle
  ⟨mapWithPosition (rotStep other position angle bb) self.width self.data 0,
   self.width, self.height⟩

/-- Modelled from the spec (for comparison with the source): the claimed
algorithm samples `other` by INVERSE-rotating the destination
coordinate, i.e. by the inverse of the rotation applied to the corners
(rotation by `-angle` about the same pivot). -/
noncomputable def rotSampleSpec (otherSize : Point2 ℕ) (position : Point2 ℤ) (angle : ℝ)
    (pixel_position : Point2 ℤ) : Point2 ℤ :=
  let r := rotatePoint (globalMiddle otherSize position) pixel_position (-angle)
  ⟨rustRound r.x - position.x, rustRound r.y - position.y⟩

/-- Modelled from the spec (for comparison with the source): the
per-pixel update of the claimed inverse-mapping algorithm. -/
noncomputable def rotStepSpec (other : LabaImage) (position : Point2 ℤ) (angle : ℝ)
    (bb : Point2 ℤ × Point2 ℤ) (pixel_position : Point2 ℤ) (pixel : Lab) : Lab :=
  if between bb.1 bb.2 pixel_position then
    match other.get (rotSampleSpec other.size_point position angle pixel_position) with
    | some other_pixel => pixel.blend other_pixel
    | none => pixel
  else pixel

/-- Modelled from the spec (for comparison with the source): rotated
overlay as the claim describes it — identical to the source except that
destination pixels are inverse-rotated back into `other`'s frame. -/
noncomputable def overlayRotatedSpec (self : LabImage) (other : LabaImage)
    (position : Point2 ℤ) (angle : ℝ) : LabImage :=
  let bb := rotatedBB other.size_point position angle
  ⟨mapWithPosition (rotStepSpec other position angle bb) self.width self.data 0,
   self.width, self.height⟩

/-- `SQRT_DISTANCE` (src/collager.rs line 17). -/
def SQRT_DISTANCE : Bool := true

/-- `GenericImage::pixels` (src/lab_image.rs): the flat pixel list. -/
def GenericImage.pixels (img : GenericImage T) : List T := img.data

/-- `UsefulOps::float_changed` (src/collager.rs), with the value drawn
by `fastrand::f32()` supplied as the oracle argument `r`:
`delta = r*2 - 1; v + delta * temperature`. -/
def floatChanged (v r temperature : ℝ) : ℝ := v + (r * 2 - 1) * temperature

/-- `UsefulOps::image_difference` (src/collager.rs): zip the two pixel
streams and sum `distance` (square-rooted, since `SQRT_DISTANCE`). -/
noncomputable def image_difference (a b : List Lab) : ℝ :=
  ((a.zip b).map (fun p =>
    if SQRT_DISTANCE then Real.sqrt (p.1.distance p.2) else p.1.distance p.2)).sum

/-- `StateEnergy<S>` (src/collager.rs), generic over the energy field. -/
structure StateEnergy (S E : Type) where
  state : S
  energy : E
deriving DecidableEq

/-- `StateEnergy::new` (src/collager.rs), with the `Annealable::energy`
function passed explicitly. -/
def StateEnergy.new (ef : S → E) (state : S) : StateEnergy S E := ⟨state, ef state⟩

/-- `Annealer<S>` (src/collager.rs), generic over the energy field. -/
structure Annealer (S E : Type) where
  state : StateEnergy S E
  best_neighbor : Option (StateEnergy S E)
  max_temperature : E
deriving DecidableEq

/-- `Annealer::new` (src/collager.rs). -/
def Annealer.new (ef : S → E) (start : S) (max_temperature : E) : Annealer S E :=
  ⟨StateEnergy.new ef start, none, max_temperature⟩

/-- `Annealer::temperature` (src/collager.rs). -/
def Annealer.temperature [Mul E] (a : Annealer S E) (fraction : E) : E :=
  a.max_temperature * fraction

/-- `Annealer::do_accept` (src/collager.rs): accept iff
`neighbor_energy - energy <= temperature`. -/
def Annealer.do_accept [LinearOrderedField E] (_a : Annealer S E)
    (energy neighbor_energy temperature : E) : Bool :=
  decide (neighbor_energy - energy ≤ temperature)

/-- `Annealer::improve` (src/collager.rs), with the `Annealable`
operations passed explicitly: `ef` is `energy`, `nf` is
`random_neighbor` (randomness determinized into `nf`). -/
def Annealer.improve [LinearOrderedField E] (ef : S → E) (nf : S → E → S)
    (a : Annealer S E) (temperature : E) : Annealer S E :=
  let neighbor := StateEnergy.new ef (nf a.state.state temperature)
  let new_best : Bool := match a.best_neighbor with
    | none => true
    | some b => decide (neighbor.energy < b.energy)
  let best := if new_best then some neighbor else a.best_neighbor
  let state := if a.do_accept a.state.energy neighbor.energy temperature then neighbor
    else a.state
  ⟨state, best, a.max_temperature⟩

/-- The `for k in 0..steps` loop of `Annealer::anneal_with_energy`
(src/collager.rs): `k` is the next iteration index, the final argument
the number of iterations still to run.  The random-neighbor oracle
`rng` is indexed by the iteration (each iteration draws fresh
randomness). -/
def annealIter [LinearOrderedField E] (ef : S → E) (rng : ℕ → S → E → S) (steps : ℕ) :
    Annealer S E → ℕ → ℕ → Annealer S E
  | a, _, 0 => a
  | a, k, rem + 1 =>
    annealIter ef rng steps
      (a.improve ef (rng k) (a.temperature (1 - ((k : E) + 1) / (steps : E)))) (k + 1) rem

/-- `Annealer::anneal_with_energy` (src/collager.rs): run the loop for
`steps` iterations and return `best_neighbor`; the terminal
`.expect("steps must be above 0")` is modelled by the `Option`. -/
def Annealer.anneal_with_energy [LinearOrderedField E] (ef : S → E) (rng : ℕ → S → E → S)
    (a : Annealer S E) (steps : ℕ) : Option (StateEnergy S E) :=
  (annealIter ef rng steps a 0 steps).best_neighbor

/-- `Annealer::anneal` (src/collager.rs): `anneal_with_energy(steps).state`. -/
def Annealer.anneal [LinearOrderedField E] (ef : S → E) (rng : ℕ → S → E → S)
    (a : Annealer S E) (steps : ℕ) : Option S :=
  (a.anneal_with_energy ef rng steps).map (fun se => se.state)

/-- Specification-side ghost list: the neighbors drawn (and their
energies as computed by `StateEnergy::new`) along the annealing run,
mirroring `annealIter` step by step. -/
def drawnNeighbors [LinearOrderedField E] (ef : S → E) (rng : ℕ → S → E → S) (steps : ℕ) :
    Annealer S E → ℕ → ℕ → List (StateEnergy S E)
  | _, _, 0 => []
  | a, k, rem + 1 =>
    let t := a.temperature (1 - ((k : E) + 1) / (steps : E))
    StateEnergy.new ef (rng k a.state.state t) ::
      drawnNeighbors ef rng steps (a.improve ef (rng k) t) (k + 1) rem

/-- `ImageState` (src/collager.rs): working canvas, optional staged
overlay, optional staged angle. -/
structure ImageState where
  image : LabImage
  add_image : Option LabaImage
  angle : Option ℝ

/-- `IndexParam` (src/collager.rs); the `images` slice it borrows is
passed to `apply` explicitly. -/
structure IndexParam where
  index : ℕ

/-- `IndexParam::apply` (src/collager.rs): stage a clone of the library
image at `index`; the unchecked `images[self.index]` is the `Option`. -/
def IndexParam.apply (images : List LabaImage) (p : IndexParam) (state : ImageState) :
    Option ImageState :=
  (images[p.index]?).map (fun img => { state with add_image := some img })

/-- `IndexParam::neighbor` (src/collager.rs): with probability
`temperature` (oracle draw `probe`), resample a uniform index (oracle
draw `resample`, reduced mod the library size). -/
noncomputable def IndexParam.neighbor (len : ℕ) (p : IndexParam) (probe : ℝ)
    (resample : ℕ) (temperature : ℝ) : IndexParam :=
  if probe < temperature then ⟨resample % len⟩ else p

/-- `ScaleParam` (src/collager.rs). -/
structure ScaleParam where
  val : Option (Point2 ℝ)

/-- `ScaleParam::apply` (src/collager.rs): resize the staged overlay by
nearest-neighbor to `originalSize * scale` (as-usize truncation). -/
noncomputable def ScaleParam.apply (p : ScaleParam) (state : ImageState) :
    Option ImageState :=
  match p.val with
  | none => some state
  | some scale =>
    state.add_image.map (fun raw =>
      let original_size := raw.size_point
      let size : Point2 ℕ := ⟨asUsize ((original_size.x : ℝ) * scale.x),
                              asUsize ((original_size.y : ℝ) * scale.y)⟩
      { state with add_image := some (raw.resized_nearest size) })

/-- `ScaleParam::neighbor` (src/collager.rs): noise of amplitude
`temperature * 0.5` per axis, floored at `0.05`. -/
noncomputable def ScaleParam.neighbor (p : ScaleParam) (rx ry temperature : ℝ) :
    ScaleParam :=
  ⟨p.val.map (fun v => ⟨max (floatChanged v.x rx (temperature * 0.5)) 0.05,
                        max (floatChanged v.y ry (temperature * 0.5)) 0.05⟩)⟩

/-- `HueParam` (src/collager.rs). -/
structure HueParam where
  val : Option Lab

/-- `HueParam::apply` (src/collager.rs): add the offset to every staged
overlay pixel's Lab channels, unclamped. -/
def HueParam.apply (p : HueParam) (state : ImageState) : Option ImageState :=
  match p.val with
  | none => some state
  | some hue =>
    state.add_image.map (fun img =>
      { state with add_image := some (img.map (fun pixel =>
          { pixel with l := pixel.l + hue.l, a := pixel.a + hue.a, b := pixel.b + hue.b })) })

/-- `HueParam::neighbor` (src/collager.rs): noise of amplitude
`temperature * 20` per channel. -/
noncomputable def HueParam.neighbor (p : HueParam) (rl ra rb temperature : ℝ) : HueParam :=
  ⟨p.val.map (fun v => ⟨floatChanged v.l rl (temperature * 20),
                        floatChanged v.a ra (temperature * 20),
                        floatChanged v.b rb (temperature * 20)⟩)⟩

/-- `TransparencyParam` (src/collager.rs). -/
structure TransparencyParam where
  val : Option ℝ

/-- `TransparencyParam::apply` (src/collager.rs): for staged pixels with
alpha above the floor `0.05`, add the offset and clamp to `[0.05, 1]`. -/
noncomputable def TransparencyParam.apply (p : TransparencyParam) (state : ImageState) :
    Option ImageState :=
  match p.val with
  | none => some state
  | some transparency =>
    state.add_image.map (fun img =>
      { state with add_image := some (img.map (fun pixel =>
          let lower_bound : ℝ := 0.05
          if pixel.alpha > lower_bound then
            { pixel with alpha := clampR (pixel.alpha + transparency) lower_bound 1 }
          else pixel)) })

/-- `TransparencyParam::neighbor` (src/collager.rs): noise of amplitude
`temperature * 0.01`, clamped to `[-1, 1]`. -/
noncomputable def TransparencyParam.neighbor (p : TransparencyParam) (r temperature : ℝ) :
    TransparencyParam :=
  ⟨p.val.map (fun v => clampR (floatChanged v r (temperature * 0.01)) (-1) 1)⟩

/-- `AngleParam` (src/collager.rs). -/
structure AngleParam where
  val : Option ℝ

/-- `AngleParam::apply` (src/collager.rs): stage
`self.0.unwrap_or(0.0)` as the compositing angle. -/
def AngleParam.apply (p : AngleParam) (state : ImageState) : Option ImageState :=
  some { state with angle := some (p.val.getD 0) }

/-- Rust `%` on floats: remainder of truncated division. -/
noncomputable def rustFmod (x y : ℝ) : ℝ := x - y * ((asI32 (x / y) : ℤ) : ℝ)

/-- `AngleParam::neighbor` (src/collager.rs): noise of amplitude
`temperature * 0.01`, reduced mod `2π`. -/
noncomputable def AngleParam.neighbor (p : AngleParam) (r temperature : ℝ) : AngleParam :=
  ⟨p.val.map (fun v => rustFmod (floatChanged v r (temperature * 0.01)) (2 * Real.pi))⟩

/-- `PositionParam` (src/collager.rs): a normalized position. -/
structure PositionParam where
  val : Point2 ℝ

/-- The pixel offset computed by `PositionParam::apply`
(src/collager.rs): `norm * canvasSize` cast by `as i32` (truncation
toward zero), clamped per axis to `[0, max(canvasSize - overlaySize, 0)]`. -/
noncomputable def PositionParam.targetPosition (pos : Point2 ℝ)
    (size addSize : Point2 ℕ) : Point2 ℤ :=
  ⟨clampZ (asI32 (pos.x * (size.x : ℝ))) 0 (max ((size.x : ℤ) - (addSize.x : ℤ)) 0),
   clampZ (asI32 (pos.y * (size.y : ℝ))) 0 (max ((size.y : ℤ) - (addSize.y : ℤ)) 0)⟩

/-- `PositionParam::apply` (src/collager.rs): take the staged overlay,
compute the clamped pixel offset, and composite with
`overlay_rotated` at the staged angle (unwraps are the `Option`). -/
noncomputable def PositionParam.apply (p : PositionParam) (state : ImageState) :
    Option ImageState :=
  match state.add_image, state.angle with
  | some add_image, some angle =>
    let position := PositionParam.targetPosition p.val state.image.size_point
        add_image.size_point
    some { state with
           image := state.image.overlay_rotated add_image position angle,
           add_image := none }
  | _, _ => none

/-- `PositionParam::neighbor` (src/collager.rs): noise of amplitude
`temperature` per axis, unclamped. -/
noncomputable def PositionParam.neighbor (p : PositionParam) (rx ry temperature : ℝ) :
    PositionParam :=
  ⟨⟨floatChanged p.val.x rx (temperature * 1), floatChanged p.val.y ry (temperature * 1)⟩⟩

/-- The fixed heterogeneous `Node` chain built by `params()` in
`Collager::collage` (src/collager.rs), flattened into a record: Index,
Scale, Hue, Transparency, Angle, Position, in that order. -/
structure Chain where
  index : IndexParam
  scale : ScaleParam
  hue : HueParam
  transparency : TransparencyParam
  angle : AngleParam
  position : PositionParam

/-- `NodeTrait::applies` for the fixed chain (src/collager.rs):
front-to-back application, the terminal node the identity. -/
noncomputable def chainApplies (images : List LabaImage) (c : Chain) (state : ImageState) :
    Option ImageState := do
  let s1 ← c.index.apply images state
  let s2 ← c.scale.apply s1
  let s3 ← c.hue.apply s2
  let s4 ← c.transparency.apply s3
  let s5 ← c.angle.apply s4
  c.position.apply s5

/-- The per-step random draws consumed by `NodeTrait::neighbors` for the
fixed chain, as oracle values. -/
structure ChainDraws where
  indexProbe : ℝ
  indexResample : ℕ
  scaleX : ℝ
  scaleY : ℝ
  hueL : ℝ
  hueA : ℝ
  hueB : ℝ
  transp : ℝ
  angleR : ℝ
  posX : ℝ
  posY : ℝ

/-- `NodeTrait::neighbors` for the fixed chain (src/collager.rs): every
node perturbed once, unconditionally. -/
noncomputable def chainNeighbors (len : ℕ) (c : Chain) (d : ChainDraws)
    (temperature : ℝ) : Chain :=
  { index := c.index.neighbor len d.indexProbe d.indexResample temperature
    scale := c.scale.neighbor d.scaleX d.scaleY temperature
    hue := c.hue.neighbor d.hueL d.hueA d.hueB temperature
    transparency := c.transparency.neighbor d.transp temperature
    angle := c.angle.neighbor d.angleR temperature
    position := c.position.neighbor d.posX d.posY temperature }

/-- `ImageAnnealable::applied` (src/collager.rs): apply the chain to a
fresh `ImageState` over the current canvas and take the image. -/
noncomputable def ImageAnnealable.applied (images : List LabaImage) (current : LabImage)
    (c : Chain) : Option LabImage :=
  (chainApplies images c ⟨current, none, none⟩).map (fun s => s.image)

/-- `ImageAnnealable::energy` (src/collager.rs): full-image perceptual
difference between the target and the applied candidate.  The `none`
branch is unreachable for chains produced by `paramsRandom` /
`chainNeighbors` (see `chainApplies_isSome`). -/
noncomputable def ImageAnnealable.energy (original : LabImage) (images : List LabaImage)
    (current : LabImage) (c : Chain) : ℝ :=
  match ImageAnnealable.applied images current c with
  | some pixels => image_difference original.pixels pixels.pixels
  | none => 0

/-- `BackgroundAnnealable::applied` (src/collager.rs): a full-size
canvas of the flat color. -/
def backgroundApplied (original : LabImage) (color : Lab) : LabImage :=
  GenericImage.repeat color original.width original.height

/-- `BackgroundAnnealable::energy` (src/collager.rs). -/
noncomputable def backgroundEnergy (original : LabImage) (color : Lab) : ℝ :=
  image_difference original.pixels (backgroundApplied original color).pixels

/-- `BackgroundAnnealable::random_neighbor` (src/collager.rs): perturb
each channel by `float_changed` at the given temperature (the three
`fastrand::f32()` draws supplied as `d`). -/
def backgroundNeighbor (color : Lab) (d : ℝ × ℝ × ℝ) (temperature : ℝ) : Lab :=
  ⟨floatChanged color.l d.1 temperature,
   floatChanged color.a d.2.1 temperature,
   floatChanged color.b d.2.2 temperature⟩

/-- `CollagerConfig` (src/collager.rs). -/
structure CollagerConfig where
  steps : ℕ
  amount : ℕ
  starts : ℕ
  starting_temperature : ℝ
  allow_scaling : Bool
  allow_rotation : Bool
  allow_hue : Bool
  allow_transparency : Bool
  debug : Bool

/-- The fatal panics reachable from `Collager::collage`. -/
inductive CollageError
  /-- `fastrand::usize(0..0)` in `IndexParam::random`: empty library. -/
  | emptyRange
  /-- `.expect("steps must be above 0")` in `anneal_with_energy`. -/
  | zeroSteps
  /-- `.expect("steps must be at least 1")` on `min_by` of zero restarts. -/
  | noStarts
  /-- an `unwrap` inside a `Paramable::apply` (unreachable in practice). -/
  | chainApplyFailed
deriving DecidableEq

/-- The random draws consumed by one `params()` call in
`Collager::collage` (src/collager.rs), as oracle values. -/
structure ParamsDraws where
  indexDraw : ℕ
  scaleX : ℝ
  scaleY : ℝ
  hueL : ℝ
  hueA : ℝ
  hueB : ℝ
  transp : ℝ
  angleDraw : ℝ
  posX : ℝ
  posY : ℝ

/-- The `params()` closure of `Collager::collage` (src/collager.rs):
build a fresh random chain honoring the enabled features.
`IndexParam::random` draws `fastrand::usize(0..images.len())`, which
panics (`emptyRange`) when the library is empty; a disabled parameter
is the absence marker and consumes no randomness. -/
noncomputable def paramsRandom (images : List LabaImage) (cfg : CollagerConfig)
    (d : ParamsDraws) : Except CollageError Chain :=
  if images.length = 0 then .error .emptyRange
  else .ok
    { index := ⟨d.indexDraw % images.length⟩
      scale := ⟨if cfg.allow_scaling then some ⟨d.scaleX + 0.5, d.scaleY + 0.5⟩ else none⟩
      hue := ⟨if cfg.allow_hue then
          some ⟨(d.hueL * 2 - 1) * 25, (d.hueA * 2 - 1) * 50, (d.hueB * 2 - 1) * 50⟩
        else none⟩
      transparency := ⟨if cfg.allow_transparency then some (d.transp * 2 - 1) else none⟩
      angle := ⟨if cfg.allow_rotation then some (d.angleDraw * (2 * Real.pi)) else none⟩
      position := ⟨⟨d.posX, d.posY⟩⟩ }

/-- The `anneal` closure of `Collager::collage` (src/collager.rs): build
a fresh chain, then run one annealing pass over it. -/
noncomputable def annealOne (cfg : CollagerConfig) (original output : LabImage)
    (images : List LabaImage) (d : ParamsDraws) (rng : ℕ → ChainDraws) :
    Except CollageError (StateEnergy Chain ℝ) := do
  let chain ← paramsRandom images cfg d
  let ef := ImageAnnealable.energy original images output
  let nf := fun k c t => chainNeighbors images.length c (rng k) t
  match Annealer.anneal_with_energy ef nf (Annealer.new ef chain cfg.starting_temperature)
      cfg.steps with
  | some se => .ok se
  | none => .error .zeroSteps

/-- Rust `Iterator::min_by` on energies: the first minimum (a later
element replaces the accumulator only when strictly smaller). -/
def minByEnergy [LinearOrderedField E] (l : List (StateEnergy S E)) :
    Option (StateEnergy S E) :=
  l.foldl (fun acc x => match acc with
    | none => some x
    | some m => if x.energy < m.energy then some x else some m) none

/-- The multi-start selection of `Collager::collage` (src/collager.rs):
run `starts` annealing restarts and keep the minimum-energy result; the
`.expect("steps must be at least 1")` on an empty iterator is
`noStarts`. -/
noncomputable def annealStarts (cfg : CollagerConfig) (original output : LabImage)
    (images : List LabaImage) (ds : ℕ → ParamsDraws) (rngs : ℕ → ℕ → ChainDraws) :
    Except CollageError (StateEnergy Chain ℝ) := do
  let results ← (List.range cfg.starts).mapM
    (fun j => annealOne cfg original output images (ds j) (rngs j))
  match minByEnergy results with
  | some best => .ok best
  | none => .error .noStarts

/-- The `for i in 0..amount` layer loop of `Collager::collage`
(src/collager.rs): `i` is the next layer index, the next argument the
number of layers still to run; each layer applies the best restart's
chain to the running canvas.  (Progress printing and debug snapshots
are I/O and not modelled.) -/
noncomputable def collageLayers (cfg : CollagerConfig) (original : LabImage)
    (images : List LabaImage) (ds : ℕ → ℕ → ParamsDraws)
    (rngs : ℕ → ℕ → ℕ → ChainDraws) : ℕ → ℕ → LabImage → Except CollageError LabImage
  | _, 0, output => .ok output
  | i, rem + 1, output => do
    let best ← annealStarts cfg original output images (ds i) (rngs i)
    match ImageAnnealable.applied images output best.state with
    | some out => collageLayers cfg original images ds rngs (i + 1) rem out
    | none => .error .chainApplyFailed

/-- `Collager::collage` (src/collager.rs): background phase, layer
phase, then the reported per-pixel error.  Returns the final canvas
(before the external `to_rgb` encoding, which lives in the missing
`colors.rs`) together with the reported `error_per_pixel`. -/
noncomputable def Collager.collage (cfg : CollagerConfig) (image : LabImage)
    (images : List LabaImage) (bgInit : Lab) (bgDraws : ℕ → ℝ × ℝ × ℝ)
    (ds : ℕ → ℕ → ParamsDraws) (rngs : ℕ → ℕ → ℕ → ChainDraws) :
    Except CollageError (LabImage × ℝ) := do
  let ef := backgroundEnergy image
  let nf := fun k c t => backgroundNeighbor c (bgDraws k) t
  let output₀ ← match Annealer.anneal ef nf (Annealer.new ef bgInit 30) cfg.steps with
    | some color => Except.ok (backgroundApplied image color)
    | none => Except.error CollageError.zeroSteps
  let output ← collageLayers cfg image images ds rngs 0 cfg.amount output₀
  let final_error := image_difference image.pixels output.pixels
  let error_per_pixel := final_error / ((image.width * image.height : ℕ) : ℝ)
  pure (output, error_per_pixel)


theorem between_iff (low high p : Point2 ℤ) :
    between low high p = true ↔
      (low.x ≤ p.x ∧ p.x < high.x) ∧ (low.y ≤ p.y ∧ p.y < high.y) := by
  simp [between]

theorem inbounds_iff (img : GenericImage T) (p : Point2 ℤ) :
    img.inbounds p = true ↔
      0 ≤ p.x ∧ p.x < (img.width : ℤ) ∧ 0 ≤ p.y ∧ p.y < (img.height : ℤ) := by
  rw [GenericImage.inbounds, between_iff]
  constructor
  · rintro ⟨⟨h1, h2⟩, h3, h4⟩; exact ⟨h1, h2, h3, h4⟩
  · rintro ⟨h1, h2, h3, h4⟩; exact ⟨⟨h1, h2⟩, h3, h4⟩

theorem toIndex_toPosition (w : ℕ) (_hw : 0 < w) (i : ℕ) :
    toIndex w (toPosition w i) = i := by
  simp only [toIndex, toPosition, Int.toNat_natCast]
  exact Nat.mod_add_div' i w

theorem toPosition_coords (w i : ℕ) :
    (toPosition w i).x = ((i % w : ℕ) : ℤ) ∧ (toPosition w i).y = ((i / w : ℕ) : ℤ) :=
  ⟨rfl, rfl⟩

theorem between_toPosition (w h : ℕ) (hw : 0 < w) (i : ℕ) (hi : i < w * h) :
    between ⟨0, 0⟩ ⟨(w : ℤ), (h : ℤ)⟩ (toPosition w i) = true := by
  have hmod : i % w < w := Nat.mod_lt i hw
  have hdiv : i / w < h := Nat.div_lt_of_lt_mul (by omega)
  rw [between_iff]
  refine ⟨⟨?_, ?_⟩, ?_, ?_⟩
  · show (0 : ℤ) ≤ ((i % w : ℕ) : ℤ)
    exact Int.natCast_nonneg _
  · show ((i % w : ℕ) : ℤ) < ((w : ℕ) : ℤ)
    exact_mod_cast hmod
  · show (0 : ℤ) ≤ ((i / w : ℕ) : ℤ)
    exact Int.natCast_nonneg _
  · show ((i / w : ℕ) : ℤ) < ((h : ℕ) : ℤ)
    exact_mod_cast hdiv

theorem toIndex_lt (w h : ℕ) (p : Point2 ℤ)
    (hp : between ⟨0, 0⟩ ⟨(w : ℤ), (h : ℤ)⟩ p = true) : toIndex w p < w * h := by
  rw [between_iff] at hp
  obtain ⟨⟨hx0, hxw⟩, hy0, hyh⟩ := hp
  simp only at hx0 hxw hy0 hyh
  have hx : p.x.toNat < w := by omega
  have hy : p.y.toNat < h := by omega
  calc p.x.toNat + p.y.toNat * w < w + p.y.toNat * w := by omega
    _ = (p.y.toNat + 1) * w := by ring
    _ ≤ h * w := Nat.mul_le_mul_right w (by omega)
    _ = w * h := Nat.mul_comm h w

theorem toPosition_toIndex (w : ℕ) (p : Point2 ℤ) (hx0 : 0 ≤ p.x) (hxw : p.x < (w : ℤ))
    (hy0 : 0 ≤ p.y) : toPosition w (toIndex w p) = p := by
  obtain ⟨px, py⟩ := p
  simp only at hx0 hxw hy0
  simp only [toPosition, toIndex]
  have hw : 0 < w := by omega
  have hx : px.toNat < w := by omega
  have h1 : (px.toNat + py.toNat * w) % w = px.toNat := by
    rw [Nat.add_mul_mod_self_right]
    exact Nat.mod_eq_of_lt hx
  have h2 : (px.toNat + py.toNat * w) / w = py.toNat := by
    rw [Nat.add_mul_div_right _ _ hw, Nat.div_eq_of_lt hx]
    omega
  rw [h1, h2]
  congr 1 <;> omega

theorem toIndex_inj (w : ℕ) (p q : Point2 ℤ) (hp : 0 ≤ p.x ∧ p.x < (w : ℤ) ∧ 0 ≤ p.y)
    (hq : 0 ≤ q.x ∧ q.x < (w : ℤ) ∧ 0 ≤ q.y) (h : toIndex w p = toIndex w q) : p = q := by
  rw [← toPosition_toIndex w p hp.1 hp.2.1 hp.2.2, h,
    toPosition_toIndex w q hq.1 hq.2.1 hq.2.2]

theorem get_of_inbounds (img : GenericImage T) (p : Point2 ℤ)
    (hp : img.inbounds p = true) : img.get p = img.data[toIndex img.width p]? := by
  simp [GenericImage.get, hp]

theorem get_isSome_of_inbounds (img : GenericImage T) (hwf : img.Wf) (p : Point2 ℤ)
    (hp : img.inbounds p = true) : ∃ v, img.get p = some v := by
  rw [get_of_inbounds img p hp]
  have : toIndex img.width p < img.data.length := by
    rw [hwf]; exact toIndex_lt img.width img.height p hp
  exact ⟨img.data.get ⟨toIndex img.width p, this⟩, (List.getElem?_eq_some).mpr ⟨this, rfl⟩⟩

theorem get_eq_none_of_not_inbounds (img : GenericImage T) (p : Point2 ℤ)
    (hp : ¬ img.inbounds p = true) : img.get p = none := by
  simp [GenericImage.get, hp]

theorem inbounds_of_get_some (img : GenericImage T) (p : Point2 ℤ) (v : T)
    (h : img.get p = some v) : img.inbounds p = true := by
  by_contra hc
  rw [get_eq_none_of_not_inbounds img p hc] at h
  exact Option.noConfusion h

theorem setPixel_width (img : GenericImage T) (p : Point2 ℤ) (v : T) :
    (img.setPixel p v).width = img.width := by
  unfold GenericImage.setPixel
  split <;> rfl

theorem setPixel_height (img : GenericImage T) (p : Point2 ℤ) (v : T) :
    (img.setPixel p v).height = img.height := by
  unfold GenericImage.setPixel
  split <;> rfl

theorem setPixel_Wf (img : GenericImage T) (hwf : img.Wf) (p : Point2 ℤ) (v : T) :
    (img.setPixel p v).Wf := by
  unfold GenericImage.setPixel GenericImage.Wf at *
  split <;> simpa

theorem setPixel_get_self (img : GenericImage T) (hwf : img.Wf) (p : Point2 ℤ) (v : T)
    (hp : img.inbounds p = true) : (img.setPixel p v).get p = some v := by
  have hlt : toIndex img.width p < img.data.length := by
    rw [hwf]; exact toIndex_lt img.width img.height p hp
  unfold GenericImage.setPixel
  rw [if_pos hp]
  have hin : (GenericImage.mk (img.data.set (toIndex img.width p) v) img.width
      img.height).inbounds p = true := hp
  rw [get_of_inbounds _ p hin]
  exact List.getElem?_set_self hlt

theorem inbounds_coords (img : GenericImage T) (p : Point2 ℤ)
    (hp : img.inbounds p = true) : 0 ≤ p.x ∧ p.x < (img.width : ℤ) ∧ 0 ≤ p.y := by
  rw [inbounds_iff] at hp
  exact ⟨hp.1, hp.2.1, hp.2.2.1⟩

theorem setPixel_get_ne (img : GenericImage T) (p q : Point2 ℤ) (v : T) (hpq : p ≠ q) :
    (img.setPixel p v).get q = img.get q := by
  unfold GenericImage.setPixel
  split
  case isTrue hp =>
    by_cases hq : img.inbounds q = true
    · have hin : (GenericImage.mk (img.data.set (toIndex img.width p) v) img.width
          img.height).inbounds q = true := hq
      rw [get_of_inbounds _ q hin, get_of_inbounds _ q hq]
      have hne : toIndex img.width p ≠ toIndex img.width q := fun hcontra =>
        hpq (toIndex_inj img.width p q (inbounds_coords img p hp)
          (inbounds_coords img q hq) hcontra)
      exact List.getElem?_set_ne hne
    · have hin : ¬ (GenericImage.mk (img.data.set (toIndex img.width p) v) img.width
          img.height).inbounds q = true := hq
      rw [get_eq_none_of_not_inbounds _ q hin, get_eq_none_of_not_inbounds _ q hq]
  case isFalse => rfl

theorem image_ext (img1 img2 : GenericImage T) (h1 : img1.Wf) (h2 : img2.Wf)
    (hw : img1.width = img2.width) (hh : img1.height = img2.height)
    (hget : ∀ p, img1.get p = img2.get p) : img1 = img2 := by
  obtain ⟨d1, w1, ht1⟩ := img1
  obtain ⟨d2, w2, ht2⟩ := img2
  simp only at hw hh
  subst hw hh
  rw [GenericImage.Wf] at h1 h2
  simp only at h1 h2
  simp only [GenericImage.mk.injEq, and_true, true_and]
  apply List.ext_getElem?
  intro n
  have h12 : d1.length = d2.length := by rw [h1, h2]
  by_cases hn : n < d1.length
  · have hwpos : 0 < w1 := by
      by_contra hc
      have hw0 : w1 = 0 := by omega
      rw [hw0, Nat.zero_mul] at h1
      omega
    have hb : between ⟨0, 0⟩ ⟨(w1 : ℤ), (ht1 : ℤ)⟩ (toPosition w1 n) = true :=
      between_toPosition w1 ht1 hwpos n (by rw [← h1]; exact hn)
    have := hget (toPosition w1 n)
    rw [get_of_inbounds ⟨d1, w1, ht1⟩ _ hb, get_of_inbounds ⟨d2, w1, ht1⟩ _ hb] at this
    simpa [toIndex_toPosition w1 hwpos n] using this
  · have ha : d1[n]? = none := List.getElem?_eq_none (by omega)
    have hb2 : d2[n]? = none := List.getElem?_eq_none (by omega)
    rw [ha, hb2]

theorem Point2.add_def [Add α] (p q : Point2 α) :
    p + q = ⟨p.x + q.x, p.y + q.y⟩ := rfl

theorem Point2.sub_def [Sub α] (p q : Point2 α) :
    p - q = ⟨p.x - q.x, p.y - q.y⟩ := rfl

theorem Point2.add_sub_cancel_left (p q : Point2 ℤ) : p + q - p = q := by
  obtain ⟨a, b⟩ := p; obtain ⟨c, d⟩ := q
  simp [Point2.add_def, Point2.sub_def]

theorem Point2.add_sub_self (pos p : Point2 ℤ) : pos + (p - pos) = p := by
  obtain ⟨a, b⟩ := pos; obtain ⟨c, d⟩ := p
  simp [Point2.add_def, Point2.sub_def]

/-- Ghost (specification side): the row-major index of `other` whose
pixel `overlay` writes to destination `p`, when one exists. -/
def sampleIdx (w : ℕ) (position p : Point2 ℤ) : Option ℕ :=
  let q : Point2 ℤ := p - position
  if 0 ≤ q.x ∧ q.x < (w : ℤ) ∧ 0 ≤ q.y then some (toIndex w q) else none

theorem sampleIdx_dest (w : ℕ) (hw : 0 < w) (pos : Point2 ℤ) (i : ℕ) :
    sampleIdx w pos (pos + toPosition w i) = some i := by
  rw [sampleIdx]
  rw [Point2.add_sub_cancel_left]
  have hx0 : 0 ≤ (toPosition w i).x := by
    show (0 : ℤ) ≤ ((i % w : ℕ) : ℤ); exact Int.natCast_nonneg _
  have hxw : (toPosition w i).x < (w : ℤ) := by
    show ((i % w : ℕ) : ℤ) < ((w : ℕ) : ℤ); exact_mod_cast Nat.mod_lt i hw
  have hy0 : 0 ≤ (toPosition w i).y := by
    show (0 : ℤ) ≤ ((i / w : ℕ) : ℤ); exact Int.natCast_nonneg _
  rw [if_pos ⟨hx0, hxw, hy0⟩, toIndex_toPosition w hw i]

theorem sampleIdx_some_spec (w : ℕ) (pos p : Point2 ℤ) (j : ℕ)
    (h : sampleIdx w pos p = some j) : p = pos + toPosition w j ∧ 0 < w := by
  rw [sampleIdx] at h
  split at h
  case isTrue hcond =>
    obtain ⟨hx0, hxw, hy0⟩ := hcond
    have hj : j = toIndex w (p - pos) := (Option.some.injEq _ _).mp h.symm
    have hw : 0 < w := by
      by_contra hc
      have : (w : ℤ) ≤ 0 := by omega
      omega
    constructor
    · rw [hj, toPosition_toIndex w (p - pos) hx0 hxw hy0, Point2.add_sub_self]
    · exact hw
  case isFalse => exact Option.noConfusion h

theorem overlayGo_width (w : ℕ) (pos : Point2 ℤ) (d : List Laba) :
    ∀ (i : ℕ) (acc : LabImage), (overlayGo w pos d i acc).width = acc.width ∧
      (overlayGo w pos d i acc).height = acc.height := by
  induction d with
  | nil => intro i acc; exact ⟨rfl, rfl⟩
  | cons px rest ih =>
    intro i acc
    show (overlayGo w pos (px :: rest) i acc).width = acc.width ∧
      (overlayGo w pos (px :: rest) i acc).height = acc.height
    cases hget : acc.get (pos + toPosition w i) with
    | some tp =>
      have hstep : overlayGo w pos (px :: rest) i acc =
          overlayGo w pos rest (i + 1) (acc.setPixel (pos + toPosition w i) (tp.blend px)) := by
        simp [overlayGo, hget]
      rw [hstep]
      obtain ⟨hw1, hh1⟩ := ih (i + 1) (acc.setPixel (pos + toPosition w i) (tp.blend px))
      rw [hw1, hh1, setPixel_width, setPixel_height]
      exact ⟨rfl, rfl⟩
    | none =>
      have hstep : overlayGo w pos (px :: rest) i acc = overlayGo w pos rest (i + 1) acc := by
        simp [overlayGo, hget]
      rw [hstep]
      exact ih (i + 1) acc

theorem overlayGo_Wf (w : ℕ) (pos : Point2 ℤ) (d : List Laba) :
    ∀ (i : ℕ) (acc : LabImage), acc.Wf → (overlayGo w pos d i acc).Wf := by
  induction d with
  | nil => intro i acc hacc; exact hacc
  | cons px rest ih =>
    intro i acc hacc
    cases hget : acc.get (pos + toPosition w i) with
    | some tp =>
      have hstep : overlayGo w pos (px :: rest) i acc =
          overlayGo w pos rest (i + 1) (acc.setPixel (pos + toPosition w i) (tp.blend px)) := by
        simp [overlayGo, hget]
      rw [hstep]
      exact ih (i + 1) _ (setPixel_Wf acc hacc _ _)
    | none =>
      have hstep : overlayGo w pos (px :: rest) i acc = overlayGo w pos rest (i + 1) acc := by
        simp [overlayGo, hget]
      rw [hstep]
      exact ih (i + 1) acc hacc

theorem overlayGo_get (w : ℕ) (hw : 0 < w) (pos : Point2 ℤ) (d : List Laba) :
    ∀ (i : ℕ) (acc : LabImage), acc.Wf → ∀ p : Point2 ℤ,
    (overlayGo w pos d i acc).get p =
      match sampleIdx w pos p with
      | some j =>
        if i ≤ j then
          match d[j - i]? with
          | some px => (acc.get p).map (fun v => v.blend px)
          | none => acc.get p
        else acc.get p
      | none => acc.get p := by
  induction d with
  | nil =>
    intro i acc hacc p
    cases hs : sampleIdx w pos p with
    | none => simp [overlayGo, hs]
    | some j => simp only [overlayGo, hs, List.getElem?_nil]; split <;> rfl
  | cons px rest ih =>
    intro i acc hacc p
    cases hget : acc.get (pos + toPosition w i) with
    | some tp =>
      have hdest : acc.inbounds (pos + toPosition w i) = true :=
        inbounds_of_get_some acc _ tp hget
      have hstep : overlayGo w pos (px :: rest) i acc =
          overlayGo w pos rest (i + 1) (acc.setPixel (pos + toPosition w i) (tp.blend px)) := by
        simp [overlayGo, hget]
      rw [hstep, ih (i + 1) _ (setPixel_Wf acc hacc _ _) p]
      cases hs : sampleIdx w pos p with
      | none =>
        have hne : p ≠ pos + toPosition w i := by
          intro he
          rw [he, sampleIdx_dest w hw pos i] at hs
          exact Option.noConfusion hs
        simp only [hs]
        exact setPixel_get_ne acc _ p _ (fun he => hne he.symm)
      | some j =>
        simp only [hs]
        by_cases hij : j = i
        · subst hij
          have hp : p = pos + toPosition w j := (sampleIdx_some_spec w pos p j hs).1
          have hnotle : ¬ j + 1 ≤ j := by omega
          rw [if_neg hnotle, if_pos (le_refl j), Nat.sub_self, List.getElem?_cons_zero]
          rw [hp, setPixel_get_self acc hacc _ _ (hp ▸ hdest), hget]
          rfl
        · have hp : p = pos + toPosition w j := (sampleIdx_some_spec w pos p j hs).1
          have hne : p ≠ pos + toPosition w i := by
            intro he
            rw [he, sampleIdx_dest w hw pos i] at hs
            have : j = i := ((Option.some.injEq _ _).mp hs).symm
            exact hij this
          have hset : (acc.setPixel (pos + toPosition w i) (tp.blend px)).get p = acc.get p :=
            setPixel_get_ne acc _ p _ (fun he => hne he.symm)
          by_cases hle : i ≤ j
          · have hle1 : i + 1 ≤ j := by omega
            rw [if_pos hle1, if_pos hle]
            have hsub : j - i = (j - (i + 1)) + 1 := by omega
            rw [hsub, List.getElem?_cons_succ]
            cases rest[j - (i + 1)]? with
            | some v => rw [hset]
            | none => exact hset
          · rw [if_neg (by omega : ¬ i + 1 ≤ j), if_neg hle]
            exact hset
    | none =>
      have hstep : overlayGo w pos (px :: rest) i acc = overlayGo w pos rest (i + 1) acc := by
        simp [overlayGo, hget]
      rw [hstep, ih (i + 1) acc hacc p]
      cases hs : sampleIdx w pos p with
      | none => simp only [hs]
      | some j =>
        simp only [hs]
        by_cases hij : j = i
        · subst hij
          have hp : p = pos + toPosition w j := (sampleIdx_some_spec w pos p j hs).1
          have hnotle : ¬ j + 1 ≤ j := by omega
          rw [if_neg hnotle, if_pos (le_refl j), Nat.sub_self, List.getElem?_cons_zero]
          rw [hp, hget]
          rfl
        · by_cases hle : i ≤ j
          · have hle1 : i + 1 ≤ j := by omega
            rw [if_pos hle1, if_pos hle]
            have hsub : j - i = (j - (i + 1)) + 1 := by omega
            rw [hsub, List.getElem?_cons_succ]
          · rw [if_neg (by omega : ¬ i + 1 ≤ j), if_neg hle]

theorem overlay_dims (self : LabImage) (other : LabaImage) (pos : Point2 ℤ) :
    (self.overlay other pos).width = self.width ∧
      (self.overlay other pos).height = self.height :=
  overlayGo_width other.width pos other.data 0 self

theorem overlay_Wf (self : LabImage) (other : LabaImage) (pos : Point2 ℤ)
    (h : self.Wf) : (self.overlay other pos).Wf :=
  overlayGo_Wf other.width pos other.data 0 self h

theorem overlay_get (self : LabImage) (other : LabaImage) (pos : Point2 ℤ)
    (h1 : self.Wf) (h2 : other.Wf) (p : Point2 ℤ) :
    (self.overlay other pos).get p =
      match other.get (p - pos) with
      | some px => (self.get p).map (fun v => v.blend px)
      | none => self.get p := by
  by_cases hw : 0 < other.width
  · rw [LabImage.overlay, overlayGo_get other.width hw pos other.data 0 self h1 p]
    cases hs : sampleIdx other.width pos p with
    | none =>
      have hgn : other.get (p - pos) = none := by
        rw [sampleIdx] at hs
        split at hs
        case isTrue hc => exact Option.noConfusion hs
        case isFalse hc =>
          apply get_eq_none_of_not_inbounds
          rw [inbounds_iff]
          rintro ⟨ha, hb, hcc, hd⟩
          exact hc ⟨ha, hb, hcc⟩
      simp only [hs, hgn]
    | some j =>
      simp only [hs, if_pos (Nat.zero_le j), Nat.sub_zero]
      obtain ⟨hp, hw0⟩ := sampleIdx_some_spec other.width pos p j hs
      have hq : p - pos = toPosition other.width j := by
        rw [hp, Point2.add_sub_cancel_left]
      by_cases hj : j < other.width * other.height
      · have hin : other.inbounds (p - pos) = true := by
          rw [hq]
          exact between_toPosition other.width other.height hw0 j hj
        rw [get_of_inbounds other _ hin, hq, toIndex_toPosition other.width hw0 j]
      · have hnone : other.data[j]? = none := List.getElem?_eq_none (by rw [h2]; omega)
        have hgn : other.get (p - pos) = none := by
          apply get_eq_none_of_not_inbounds
          rw [inbounds_iff]
          rintro ⟨ha, hb, hcc, hd⟩
          have hy : (p - pos).y = ((j / other.width : ℕ) : ℤ) := by rw [hq]; rfl
          rw [hy] at hd
          have hlt : j / other.width < other.height := by exact_mod_cast hd
          rw [Nat.div_lt_iff_lt_mul hw] at hlt
          exact hj (lt_of_lt_of_eq hlt (Nat.mul_comm _ _))
        rw [hnone, hgn]
  · have hw0 : other.width = 0 := by omega
    have hd : other.data = [] := by
      have hl := h2
      rw [GenericImage.Wf, hw0, Nat.zero_mul] at hl
      exact List.eq_nil_of_length_eq_zero hl
    have hov : self.overlay other pos = self := by
      rw [LabImage.overlay, hd]
      rfl
    have hgn : other.get (p - pos) = none := by
      apply get_eq_none_of_not_inbounds
      rw [inbounds_iff]
      rintro ⟨ha, hb, _, _⟩
      rw [hw0] at hb
      omega
    rw [hov, hgn]

theorem mapWithPosition_length (f : Point2 ℤ → Lab → Lab) (w : ℕ) :
    ∀ (d : List Lab) (i : ℕ), (mapWithPosition f w d i).length = d.length := by
  intro d
  induction d with
  | nil => intro i; rfl
  | cons px rest ih =>
    intro i
    show (f (toPosition w i) px :: mapWithPosition f w rest (i + 1)).length = rest.length + 1
    rw [List.length_cons, ih (i + 1)]

theorem mapWithPosition_getElem (f : Point2 ℤ → Lab → Lab) (w : ℕ) :
    ∀ (d : List Lab) (i k : ℕ),
      (mapWithPosition f w d i)[k]? = (d[k]?).map (f (toPosition w (i + k))) := by
  intro d
  induction d with
  | nil => intro i k; simp [mapWithPosition]
  | cons px rest ih =>
    intro i k
    cases k with
    | zero =>
      show (f (toPosition w i) px :: mapWithPosition f w rest (i + 1))[0]? = _
      rw [List.getElem?_cons_zero]
      simp
    | succ k =>
      show (f (toPosition w i) px :: mapWithPosition f w rest (i + 1))[k + 1]? = _
      rw [List.getElem?_cons_succ, List.getElem?_cons_succ, ih (i + 1) k]
      have : i + 1 + k = i + (k + 1) := by omega
      rw [this]

theorem mapImage_get (self : LabImage) (f : Point2 ℤ → Lab → Lab) (h1 : self.Wf)
    (p : Point2 ℤ) :
    (GenericImage.mk (mapWithPosition f self.width self.data 0) self.width
      self.height).get p = (self.get p).map (f p) := by
  by_cases hp : self.inbounds p = true
  · have coords := inbounds_coords self p hp
    have hin2 : (GenericImage.mk (mapWithPosition f self.width self.data 0) self.width
        self.height).inbounds p = true := hp
    rw [get_of_inbounds _ p hin2, get_of_inbounds self p hp]
    show (mapWithPosition f self.width self.data 0)[toIndex self.width p]? = _
    rw [mapWithPosition_getElem f self.width self.data 0 (toIndex self.width p)]
    have hpos : toPosition self.width (0 + toIndex self.width p) = p := by
      rw [Nat.zero_add]
      exact toPosition_toIndex self.width p coords.1 coords.2.1 coords.2.2
    rw [hpos]
  · have hp2 : ¬ (GenericImage.mk (mapWithPosition f self.width self.data 0) self.width
        self.height).inbounds p = true := hp
    rw [get_eq_none_of_not_inbounds _ p hp2, get_eq_none_of_not_inbounds self p hp]
    rfl

theorem overlay_rotated_get (self : LabImage) (other : LabaImage) (pos : Point2 ℤ)
    (angle : ℝ) (h1 : self.Wf) (p : Point2 ℤ) :
    (self.overlay_rotated other pos angle).get p =
      (self.get p).map
        (rotStep other pos angle (rotatedBB other.size_point pos angle) p) := by
  exact mapImage_get self _ h1 p

theorem overlay_rotated_dims (self : LabImage) (other : LabaImage) (pos : Point2 ℤ)
    (angle : ℝ) :
    (self.overlay_rotated other pos angle).width = self.width ∧
      (self.overlay_rotated other pos angle).height = self.height :=
  ⟨rfl, rfl⟩

theorem overlay_rotated_Wf (self : LabImage) (other : LabaImage) (pos : Point2 ℤ)
    (angle : ℝ) (h1 : self.Wf) : (self.overlay_rotated other pos angle).Wf := by
  show (mapWithPosition _ self.width self.data 0).length = self.width * self.height
  rw [mapWithPosition_length]
  exact h1

theorem overlayRotatedSpec_get (self : LabImage) (other : LabaImage) (pos : Point2 ℤ)
    (angle : ℝ) (h1 : self.Wf) (p : Point2 ℤ) :
    (overlayRotatedSpec self other pos angle).get p =
      (self.get p).map
        (rotStepSpec other pos angle (rotatedBB other.size_point pos angle) p) := by
  exact mapImage_get self _ h1 p

theorem rotatePoint_zero (o : Point2 ℝ) (p : Point2 ℤ) :
    rotatePoint o p 0 = ⟨(p.x : ℝ), (p.y : ℝ)⟩ := by
  rw [rotatePoint]
  simp only [Real.cos_zero, Real.sin_zero]
  congr 1 <;> ring

theorem floor_intCast_add_half (n : ℤ) : ⌊(n : ℝ) + 1 / 2⌋ = n := by
  rw [add_comm, Int.floor_add_int]
  norm_num [Int.floor_eq_iff]

theorem rustRound_intCast (n : ℤ) : rustRound ((n : ℤ) : ℝ) = n := by
  rw [rustRound]
  by_cases hn : ((n : ℤ) : ℝ) < 0
  · rw [if_pos hn]
    have hcast : -((n : ℤ) : ℝ) = (((-n : ℤ) : ℤ) : ℝ) := by push_cast; ring
    rw [hcast, floor_intCast_add_half]
    omega
  · rw [if_neg hn, floor_intCast_add_half]

theorem rotatedBB_zero (s : Point2 ℕ) (pos : Point2 ℤ) :
    rotatedBB s pos 0 = (pos, pos + ⟨(s.x : ℤ), (s.y : ℤ)⟩) := by
  obtain ⟨sx, sy⟩ := s
  obtain ⟨px, py⟩ := pos
  rw [rotatedBB]
  simp only [rotatePoint_zero, Point2.add_def]
  simp only [Prod.mk.injEq, Point2.mk.injEq]
  refine ⟨⟨?_, ?_⟩, ?_, ?_⟩ <;> norm_cast <;> simp <;> omega

theorem rotSample_zero (s : Point2 ℕ) (pos p : Point2 ℤ) :
    rotSample s pos 0 p = p - pos := by
  rw [rotSample]
  simp only [rotatePoint_zero]
  rw [Point2.sub_def]
  congr 1 <;> rw [rustRound_intCast]

theorem between_shift_iff (w h : ℕ) (pos p : Point2 ℤ) :
    between pos (pos + ⟨(w : ℤ), (h : ℤ)⟩) p = true ↔
      (0 ≤ (p - pos).x ∧ (p - pos).x < (w : ℤ) ∧ 0 ≤ (p - pos).y ∧ (p - pos).y < (h : ℤ)) := by
  rw [between_iff]
  obtain ⟨px, py⟩ := p
  obtain ⟨ax, ay⟩ := pos
  simp only [Point2.add_def, Point2.sub_def]
  constructor
  · rintro ⟨⟨h1, h2⟩, h3, h4⟩
    refine ⟨?_, ?_, ?_, ?_⟩ <;> omega
  · rintro ⟨h1, h2, h3, h4⟩
    refine ⟨⟨?_, ?_⟩, ?_, ?_⟩ <;> omega

theorem between_eq_inbounds (other : LabaImage) (pos p : Point2 ℤ) :
    between pos (pos + ⟨(other.width : ℤ), (other.height : ℤ)⟩) p =
      other.inbounds (p - pos) := by
  have h1 := between_shift_iff other.width other.height pos p
  have h2 := inbounds_iff other (p - pos)
  cases hb : between pos (pos + ⟨(other.width : ℤ), (other.height : ℤ)⟩) p with
  | true => exact (h2.mpr (h1.mp hb)).symm
  | false =>
    cases hi : other.inbounds (p - pos) with
    | true =>
      exfalso
      have hcontra := h1.mpr (h2.mp hi)
      rw [hb] at hcontra
      exact Bool.noConfusion hcontra
    | false => rfl

theorem rotStep_zero_apply (other : LabaImage) (pos p : Point2 ℤ) (v : Lab) :
    rotStep other pos 0 (rotatedBB other.size_point pos 0) p v =
      match other.get (p - pos) with
      | some opx => v.blend opx
      | none => v := by
  rw [rotStep, rotatedBB_zero, rotSample_zero]
  have hsz : (⟨((GenericImage.size_point other).x : ℤ), ((GenericImage.size_point other).y : ℤ)⟩ : Point2 ℤ)
      = ⟨(other.width : ℤ), (other.height : ℤ)⟩ := rfl
  rw [hsz, between_eq_inbounds]
  cases hg : other.get (p - pos) with
  | some opx =>
    rw [if_pos (inbounds_of_get_some other _ opx hg)]
  | none =>
    by_cases hin : other.inbounds (p - pos) = true
    · rw [if_pos hin]
    · rw [if_neg hin]

/-- C8: for every canvas, overlay image and position (each satisfying
the buffer-length invariant), `overlay_rotated` with angle `0` produces
a canvas pixel-identical to the plain `overlay` of the same overlay at
the same position. -/
theorem C8_overlay_rotated_zero_eq_overlay (self : LabImage) (other : LabaImage)
    (pos : Point2 ℤ) (h1 : self.Wf) (h2 : other.Wf) :
    self.overlay_rotated other pos 0 = self.overlay other pos := by
  apply image_ext _ _ (overlay_rotated_Wf self other pos 0 h1) (overlay_Wf self other pos h1)
  · rw [(overlay_rotated_dims self other pos 0).1, (overlay_dims self other pos).1]
  · rw [(overlay_rotated_dims self other pos 0).2, (overlay_dims self other pos).2]
  · intro p
    rw [overlay_rotated_get self other pos 0 h1 p, overlay_get self other pos h1 h2 p]
    cases hv : self.get p with
    | none => cases hg : other.get (p - pos) <;> rfl
    | some v =>
      cases hg : other.get (p - pos) with
      | some opx =>
        show some (rotStep other pos 0 (rotatedBB other.size_point pos 0) p v) =
          some (v.blend opx)
        rw [rotStep_zero_apply, hg]
      | none =>
        show some (rotStep other pos 0 (rotatedBB other.size_point pos 0) p v) = some v
        rw [rotStep_zero_apply, hg]

/-- C8 witness: the equivalence applied to a concrete 1×1 canvas and
1×1 opaque overlay. -/
theorem C8_witness :
    GenericImage.Wf (⟨[(⟨0, 0, 0⟩ : Lab)], 1, 1⟩ : LabImage) ∧
    GenericImage.Wf (⟨[(⟨1, 0, 0, 1⟩ : Laba)], 1, 1⟩ : LabaImage) ∧
    LabImage.overlay_rotated (⟨[(⟨0, 0, 0⟩ : Lab)], 1, 1⟩ : LabImage)
        (⟨[(⟨1, 0, 0, 1⟩ : Laba)], 1, 1⟩ : LabaImage) ⟨0, 0⟩ 0 =
      LabImage.overlay (⟨[(⟨0, 0, 0⟩ : Lab)], 1, 1⟩ : LabImage)
        (⟨[(⟨1, 0, 0, 1⟩ : Laba)], 1, 1⟩ : LabaImage) ⟨0, 0⟩ :=
  ⟨by decide, by decide, C8_overlay_rotated_zero_eq_overlay _ _ _ (by decide) (by decide)⟩

/-- Modelled from the spec (for comparison with the source): a
`from_raw` that rejects data whose length differs from width·height is
what the claim describes. -/
def fromRawChecked (data : List T) (width height : ℕ) : Option (GenericImage T) :=
  if data.length = width * height then some ⟨data, width, height⟩ else none

/-- C2 counterexample: `from_raw` does not reject a mismatched buffer.
On the empty buffer with claimed size 1×1 it succeeds, returning a grid
that violates the length invariant — whereas the claimed behavior
(`fromRawChecked`) rejects this input. -/
theorem C2_counterexample :
    GenericImage.from_raw ([] : List ℕ) 1 1 = ⟨[], 1, 1⟩ ∧
    ¬ (GenericImage.from_raw ([] : List ℕ) 1 1).Wf ∧
    fromRawChecked ([] : List ℕ) 1 1 = none :=
  ⟨rfl, by decide, rfl⟩

/-- C2 amended: `from_raw` performs no validation at all — it succeeds
on every input, storing the buffer and dimensions unchanged, and the
resulting grid satisfies the length invariant iff the input already
did. -/
theorem C2_from_raw_no_validation (T : Type) (data : List T) (w h : ℕ) :
    GenericImage.from_raw data w h = ⟨data, w, h⟩ ∧
    ((GenericImage.from_raw data w h).Wf ↔ data.length = w * h) :=
  ⟨rfl, Iff.rfl⟩

/-- C10: `from_fn`, `repeat`, `map`, `resized_nearest`, `overlay` and
`overlay_rotated` all preserve (or establish) the invariant
`data.len = width * height`, and `resized_nearest` returns a grid whose
dimensions exactly equal the requested size. -/
theorem C10_grid_invariants :
    (∀ (T : Type) (w h : ℕ) (f : Point2 ℤ → T), (GenericImage.from_fn w h f).Wf) ∧
    (∀ (T : Type) (v : T) (w h : ℕ), (GenericImage.repeat v w h).Wf) ∧
    (∀ (T U : Type) (img : GenericImage T) (f : T → U), img.Wf → (img.map f).Wf) ∧
    (∀ (T : Type) (inst : Inhabited T) (img : GenericImage T) (size : Point2 ℕ),
      (img.resized_nearest size).Wf ∧ (img.resized_nearest size).width = size.x ∧
        (img.resized_nearest size).height = size.y) ∧
    (∀ (self : LabImage) (other : LabaImage) (pos : Point2 ℤ), self.Wf →
      (self.overlay other pos).Wf) ∧
    (∀ (self : LabImage) (other : LabaImage) (pos : Point2 ℤ) (angle : ℝ), self.Wf →
      (self.overlay_rotated other pos angle).Wf) := by
  refine ⟨?_, ?_, ?_, ?_, ?_, ?_⟩
  · intro T w h f
    show ((List.range (w * h)).map _).length = w * h
    rw [List.length_map, List.length_range]
  · intro T v w h
    show (List.replicate (w * h) v).length = w * h
    rw [List.length_replicate]
  · intro T U img f h
    show (img.data.map f).length = img.width * img.height
    rw [List.length_map]
    exact h
  · intro T inst img size
    refine ⟨?_, rfl, rfl⟩
    show ((List.range (size.x * size.y)).map _).length = size.x * size.y
    rw [List.length_map, List.length_range]
  · exact fun self other pos h => overlay_Wf self other pos h
  · exact fun self other pos angle h => overlay_rotated_Wf self other pos angle h

/-- C10 witness: the invariant-preservation facts applied at concrete
grids, discharging the well-formedness hypotheses. -/
theorem C10_witness :
    GenericImage.Wf (⟨[(0 : ℕ)], 1, 1⟩ : GenericImage ℕ) ∧
    ((⟨[(0 : ℕ)], 1, 1⟩ : GenericImage ℕ).map (fun n => n + 1)).Wf ∧
    (LabImage.overlay (⟨[(⟨0, 0, 0⟩ : Lab)], 1, 1⟩ : LabImage)
      (⟨[], 0, 0⟩ : LabaImage) ⟨0, 0⟩).Wf :=
  ⟨by decide, C10_grid_invariants.2.2.1 ℕ ℕ _ _ (by decide),
    C10_grid_invariants.2.2.2.2.1 _ _ _ (by decide)⟩

theorem inbounds_of_dims_eq (img1 img2 : GenericImage T) (hw : img1.width = img2.width)
    (hh : img1.height = img2.height) (p : Point2 ℤ) :
    img1.inbounds p = img2.inbounds p := by
  rw [GenericImage.inbounds, GenericImage.inbounds, hw, hh]

/-- C9: `overlay` and `overlay_rotated` never fault for arbitrary
placements, including ones partially or fully outside the canvas: both
are total and preserve the canvas dimensions, destination coordinates
outside the canvas stay absent (writes silently dropped), and every
canvas pixel outside the placement footprint (the translated rectangle
for `overlay`; the bounding box with an in-range rotated sample for
`overlay_rotated`) keeps its value. -/
theorem C9_overlay_never_faults :
    (∀ (self : LabImage) (other : LabaImage) (pos : Point2 ℤ),
      (self.overlay other pos).width = self.width ∧
      (self.overlay other pos).height = self.height) ∧
    (∀ (self : LabImage) (other : LabaImage) (pos : Point2 ℤ) (angle : ℝ),
      (self.overlay_rotated other pos angle).width = self.width ∧
      (self.overlay_rotated other pos angle).height = self.height) ∧
    (∀ (self : LabImage) (other : LabaImage) (pos : Point2 ℤ) (angle : ℝ)
      (p : Point2 ℤ), self.inbounds p = false →
      (self.overlay other pos).get p = none ∧
      (self.overlay_rotated other pos angle).get p = none) ∧
    (∀ (self : LabImage) (other : LabaImage) (pos : Point2 ℤ), self.Wf → other.Wf →
      ∀ p : Point2 ℤ, other.get (p - pos) = none →
        (self.overlay other pos).get p = self.get p) ∧
    (∀ (self : LabImage) (other : LabaImage) (pos : Point2 ℤ) (angle : ℝ), self.Wf →
      ∀ p : Point2 ℤ,
        (between (rotatedBB other.size_point pos angle).1
            (rotatedBB other.size_point pos angle).2 p = false ∨
          other.get (rotSample other.size_point pos angle p) = none) →
        (self.overlay_rotated other pos angle).get p = self.get p) := by
  refine ⟨fun self other pos => overlay_dims self other pos,
    fun self other pos angle => overlay_rotated_dims self other pos angle, ?_, ?_, ?_⟩
  · intro self other pos angle p hp
    constructor
    · apply get_eq_none_of_not_inbounds
      rw [inbounds_of_dims_eq _ self (overlay_dims self other pos).1
        (overlay_dims self other pos).2 p, hp]
      exact Bool.false_ne_true
    · apply get_eq_none_of_not_inbounds
      rw [inbounds_of_dims_eq _ self (overlay_rotated_dims self other pos angle).1
        (overlay_rotated_dims self other pos angle).2 p, hp]
      exact Bool.false_ne_true
  · intro self other pos h1 h2 p hg
    rw [overlay_get self other pos h1 h2 p, hg]
  · intro self other pos angle h1 p hcase
    rw [overlay_rotated_get self other pos angle h1 p]
    cases hv : self.get p with
    | none => rfl
    | some v =>
      show some (rotStep other pos angle (rotatedBB other.size_point pos angle) p v) = some v
      rcases hcase with hb | hs
      · rw [rotStep, if_neg (by rw [hb]; exact Bool.false_ne_true)]
      · rw [rotStep, hs]
        split <;> rfl

/-- C9 witness: the frame facts applied at a concrete 1×1 canvas with a
far-out-of-bounds placement. -/
theorem C9_witness :
    GenericImage.Wf (⟨[(⟨0, 0, 0⟩ : Lab)], 1, 1⟩ : LabImage) ∧
    GenericImage.Wf (⟨[(⟨1, 0, 0, 1⟩ : Laba)], 1, 1⟩ : LabaImage) ∧
    GenericImage.get (⟨[(⟨1, 0, 0, 1⟩ : Laba)], 1, 1⟩ : LabaImage)
      ((⟨0, 0⟩ : Point2 ℤ) - ⟨7, 7⟩) = none ∧
    (LabImage.overlay (⟨[(⟨0, 0, 0⟩ : Lab)], 1, 1⟩ : LabImage)
        (⟨[(⟨1, 0, 0, 1⟩ : Laba)], 1, 1⟩ : LabaImage) ⟨7, 7⟩).get ⟨0, 0⟩ =
      (⟨[(⟨0, 0, 0⟩ : Lab)], 1, 1⟩ : LabImage).get ⟨0, 0⟩ := by
  refine ⟨by decide, by decide, ?_, ?_⟩
  · rfl
  · exact C9_overlay_never_faults.2.2.2.1 _ _ _ (by decide) (by decide) ⟨0, 0⟩ rfl

theorem improve_best_isSome [LinearOrderedField E] (ef : S → E) (nf : S → E → S)
    (a : Annealer S E) (t : E) : ∃ b, (a.improve ef nf t).best_neighbor = some b := by
  rw [Annealer.improve]
  cases hb : a.best_neighbor with
  | none => exact ⟨_, rfl⟩
  | some b0 =>
    simp only
    split
    · exact ⟨_, rfl⟩
    · exact ⟨b0, rfl⟩

theorem improve_best_spec [LinearOrderedField E] (ef : S → E) (nf : S → E → S)
    (a : Annealer S E) (t : E) (b' : StateEnergy S E)
    (h : (a.improve ef nf t).best_neighbor = some b') :
    b'.energy ≤ (StateEnergy.new ef (nf a.state.state t)).energy ∧
    (∀ b0, a.best_neighbor = some b0 → b'.energy ≤ b0.energy) ∧
    (b' = StateEnergy.new ef (nf a.state.state t) ∨ a.best_neighbor = some b') := by
  rw [Annealer.improve] at h
  cases hb : a.best_neighbor with
  | none =>
    rw [hb] at h
    simp only at h
    rw [if_pos trivial] at h
    have hb' : b' = StateEnergy.new ef (nf a.state.state t) :=
      ((Option.some.injEq _ _).mp h).symm
    subst hb'
    refine ⟨le_refl _, ?_, Or.inl rfl⟩
    intro b0 hb0
    exact Option.noConfusion hb0
  | some b0 =>
    rw [hb] at h
    simp only at h
    by_cases hlt : (StateEnergy.new ef (nf a.state.state t)).energy < b0.energy
    · rw [if_pos (decide_eq_true hlt)] at h
      have hb' : b' = StateEnergy.new ef (nf a.state.state t) :=
        ((Option.some.injEq _ _).mp h).symm
      subst hb'
      refine ⟨le_refl _, ?_, Or.inl rfl⟩
      intro b1 hb1
      have heq : b0 = b1 := (Option.some.injEq _ _).mp hb1
      subst heq
      exact le_of_lt hlt
    · rw [if_neg (fun hc => hlt (of_decide_eq_true hc))] at h
      have hb' : b0 = b' := (Option.some.injEq _ _).mp h
      refine ⟨?_, ?_, Or.inr (by rw [hb'])⟩
      · rw [← hb']
        exact le_of_not_lt hlt
      · intro b1 hb1
        have heq : b0 = b1 := (Option.some.injEq _ _).mp hb1
        rw [← hb', ← heq]

theorem annealIter_best_spec [LinearOrderedField E] (ef : S → E) (rng : ℕ → S → E → S)
    (steps : ℕ) : ∀ (rem k : ℕ) (a : Annealer S E),
    (∀ b', (annealIter ef rng steps a k rem).best_neighbor = some b' →
      ((b' ∈ drawnNeighbors ef rng steps a k rem ∨ a.best_neighbor = some b') ∧
       (∀ n ∈ drawnNeighbors ef rng steps a k rem, b'.energy ≤ n.energy) ∧
       (∀ b0, a.best_neighbor = some b0 → b'.energy ≤ b0.energy))) ∧
    ((annealIter ef rng steps a k rem).best_neighbor = none →
      (a.best_neighbor = none ∧ rem = 0)) := by
  intro rem
  induction rem with
  | zero =>
    intro k a
    constructor
    · intro b' h
      have ha : a.best_neighbor = some b' := h
      refine ⟨Or.inr ha, ?_, ?_⟩
      · intro n hn
        exact absurd hn (List.not_mem_nil n)
      · intro b0 hb0
        rw [ha] at hb0
        rw [← (Option.some.injEq _ _).mp hb0]
    · intro h
      exact ⟨h, rfl⟩
  | succ rem ih =>
    intro k a
    have hunf : annealIter ef rng steps a k (rem + 1) =
        annealIter ef rng steps
          (a.improve ef (rng k) (a.temperature (1 - ((k : E) + 1) / (steps : E))))
          (k + 1) rem := rfl
    have hdrawn : drawnNeighbors ef rng steps a k (rem + 1) =
        StateEnergy.new ef (rng k a.state.state
            (a.temperature (1 - ((k : E) + 1) / (steps : E)))) ::
          drawnNeighbors ef rng steps
            (a.improve ef (rng k) (a.temperature (1 - ((k : E) + 1) / (steps : E))))
            (k + 1) rem := rfl
    obtain ⟨b1, hb1⟩ := improve_best_isSome ef (rng k) a
      (a.temperature (1 - ((k : E) + 1) / (steps : E)))
    obtain ⟨hmem1, hle1, hold1⟩ := improve_best_spec ef (rng k) a _ b1 hb1
    constructor
    · intro b' h
      rw [hunf] at h
      obtain ⟨hmem, hforall, hbest⟩ := (ih (k + 1) _).1 b' h
      have hb'b1 : b'.energy ≤ b1.energy := hbest b1 hb1
      refine ⟨?_, ?_, ?_⟩
      · rw [hdrawn]
        rcases hmem with hin | heq
        · exact Or.inl (List.mem_cons_of_mem _ hin)
        · rw [heq] at hb1
          have hbb : b' = b1 := (Option.some.injEq _ _).mp hb1
          subst hbb
          rcases hold1 with hnb | hkeep
          · exact Or.inl (hnb ▸ List.mem_cons_self _ _)
          · exact Or.inr hkeep
      · rw [hdrawn]
        intro n hn
        rcases List.mem_cons.mp hn with hn1 | hn2
        · rw [hn1]
          exact le_trans hb'b1 hmem1
        · exact hforall n hn2
      · intro b0 hb0
        exact le_trans hb'b1 (hle1 b0 hb0)
    · intro h
      rw [hunf] at h
      obtain ⟨hnone, _⟩ := (ih (k + 1) _).2 h
      rw [hb1] at hnone
      exact Option.noConfusion hnone

theorem ite_decide (P : Prop) [inst : Decidable P] (x y : α) :
    (if decide P = true then x else y) = if P then x else y := by
  by_cases h : P <;> simp [h]

theorem drawnNeighbors_energy [LinearOrderedField E] (ef : S → E) (rng : ℕ → S → E → S)
    (steps : ℕ) : ∀ (rem k : ℕ) (a : Annealer S E),
    ∀ n ∈ drawnNeighbors ef rng steps a k rem, n.energy = ef n.state := by
  intro rem
  induction rem with
  | zero =>
    intro k a n hn
    exact absurd hn (List.not_mem_nil n)
  | succ rem ih =>
    intro k a n hn
    rcases List.mem_cons.mp hn with h1 | h2
    · rw [h1]
      rfl
    · exact ih (k + 1) _ n h2

/-- Example random-neighbor oracle over `ℚ`: drawn energies 1, 30, 31
at the three steps, independent of the state. -/
def exRngC1 : ℕ → ℚ → ℚ → ℚ := fun k _ _ => if k = 0 then 1 else if k = 1 then 30 else 31

/-- C1: `anneal_with_energy` runs exactly `steps` iterations of
`improve`; at iteration `k` the temperature is
`maxTemperature * (1 - (k+1)/steps)`; each iteration draws one neighbor
of the current state and sets `current = neighbor` iff
`neighbor.energy - current.energy ≤ temperature` (a deterministic
threshold, no probabilistic draw); the call fails exactly when
`steps = 0`; and the returned value is the minimum-energy drawn
neighbor (the best-seen).  The final conjunct is a concrete `ℚ` run in
which the returned best-seen neighbor (energy 1) differs from the final
current state (energy 30): the result is never the final current
state. -/
theorem C1_anneal_with_energy_spec :
    (∀ (S E : Type) (inst : LinearOrderedField E) (ef : S → E) (rng : ℕ → S → E → S)
      (start : S) (maxT : E) (steps : ℕ),
      Annealer.anneal_with_energy ef rng (Annealer.new ef start maxT) steps = none ↔
        steps = 0) ∧
    (∀ (S E : Type) (inst : LinearOrderedField E) (ef : S → E) (rng : ℕ → S → E → S)
      (steps : ℕ) (a : Annealer S E) (k rem : ℕ),
      annealIter ef rng steps a k (rem + 1) =
        annealIter ef rng steps
          (a.improve ef (rng k) (a.max_temperature * (1 - ((k : E) + 1) / (steps : E))))
          (k + 1) rem) ∧
    (∀ (S E : Type) (inst : LinearOrderedField E) (ef : S → E) (nf : S → E → S)
      (a : Annealer S E) (t : E),
      (a.improve ef nf t).state =
        if (StateEnergy.new ef (nf a.state.state t)).energy - a.state.energy ≤ t
        then StateEnergy.new ef (nf a.state.state t) else a.state) ∧
    (∀ (S E : Type) (inst : LinearOrderedField E) (ef : S → E) (rng : ℕ → S → E → S)
      (start : S) (maxT : E) (steps : ℕ), 1 ≤ steps →
      ∃ b, Annealer.anneal_with_energy ef rng (Annealer.new ef start maxT) steps = some b ∧
        b ∈ drawnNeighbors ef rng steps (Annealer.new ef start maxT) 0 steps ∧
        ∀ n ∈ drawnNeighbors ef rng steps (Annealer.new ef start maxT) 0 steps,
          b.energy ≤ n.energy) ∧
    (Annealer.anneal_with_energy (id : ℚ → ℚ) exRngC1 (Annealer.new id 0 100) 3 =
        some ⟨1, 1⟩ ∧
      (annealIter (id : ℚ → ℚ) exRngC1 3 (Annealer.new id 0 100) 0 3).state = ⟨30, 30⟩) := by
  refine ⟨?_, ?_, ?_, ?_, ?_⟩
  · intro S E inst ef rng start maxT steps
    constructor
    · intro h
      exact ((annealIter_best_spec ef rng steps steps 0 (Annealer.new ef start maxT)).2 h).2
    · intro h
      subst h
      rfl
  · intro S E inst ef rng steps a k rem
    rfl
  · intro S E inst ef nf a t
    show (if (a.do_accept a.state.energy (StateEnergy.new ef (nf a.state.state t)).energy t)
          = true
        then StateEnergy.new ef (nf a.state.state t) else a.state) = _
    rw [Annealer.do_accept, ite_decide]
  · intro S E inst ef rng start maxT steps hsteps
    cases hb : Annealer.anneal_with_energy ef rng (Annealer.new ef start maxT) steps with
    | none =>
      have h0 := ((annealIter_best_spec ef rng steps steps 0 (Annealer.new ef start maxT)).2
        hb).2
      omega
    | some b =>
      obtain ⟨hmem, hall, _⟩ :=
        (annealIter_best_spec ef rng steps steps 0 (Annealer.new ef start maxT)).1 b hb
      refine ⟨b, rfl, ?_, hall⟩
      rcases hmem with h | h
      · exact h
      · exact absurd (h : (none : Option (StateEnergy S E)) = some b)
          (fun hc => Option.noConfusion hc)
  · constructor
    · norm_num [Annealer.anneal_with_energy, annealIter, Annealer.improve, Annealer.new,
        StateEnergy.new, Annealer.temperature, Annealer.do_accept, exRngC1]
    · norm_num [annealIter, Annealer.improve, Annealer.new,
        StateEnergy.new, Annealer.temperature, Annealer.do_accept, exRngC1]

/-- C1 witness: the best-seen conjunct applied to a concrete one-step
run over `ℚ`, discharging the `1 ≤ steps` hypothesis. -/
theorem C1_witness :
    1 ≤ 1 ∧
    ∃ b, Annealer.anneal_with_energy (id : ℚ → ℚ) exRngC1 (Annealer.new id 0 100) 1 =
        some b ∧
      b ∈ drawnNeighbors (id : ℚ → ℚ) exRngC1 1 (Annealer.new id 0 100) 0 1 ∧
      ∀ n ∈ drawnNeighbors (id : ℚ → ℚ) exRngC1 1 (Annealer.new id 0 100) 0 1,
        b.energy ≤ n.energy :=
  ⟨le_refl 1,
    C1_anneal_with_energy_spec.2.2.2.1 ℚ ℚ inferInstance id exRngC1 0 100 1 (le_refl 1)⟩

/-- Example random-neighbor oracle over `ℚ` whose drawn neighbor is
always worse than the current state by 1. -/
def exRngC5 : ℕ → ℚ → ℚ → ℚ := fun _ s _ => s + 1

/-- C5 counterexample: a one-step run over `ℚ` with energy `id`
starting at state 0 (energy 0).  The only drawn neighbor has energy 1,
so `anneal(steps = 1)` returns state 1 with energy `1 > 0`: the
returned energy exceeds the initial state's energy, refuting the claim
at `N = 1`. -/
theorem C5_counterexample :
    Annealer.anneal (id : ℚ → ℚ) exRngC5 (Annealer.new id 0 10) 1 = some 1 ∧
    (Annealer.new (id : ℚ → ℚ) 0 10).state.energy = 0 ∧ ¬ ((1 : ℚ) ≤ 0) := by
  refine ⟨?_, rfl, by norm_num⟩
  norm_num [Annealer.anneal, Annealer.anneal_with_energy, annealIter, Annealer.improve,
    Annealer.new, StateEnergy.new, Annealer.temperature, Annealer.do_accept, exRngC5]

/-- C5 amended: for every annealable start state and `N ≥ 1`,
`anneal(steps = N)` returns the state of the minimum-energy neighbor
drawn during the run: its energy is `≤` the energy of every drawn
neighbor — but not necessarily `≤` the initial state's energy. -/
theorem C5_anneal_returns_best_drawn (S E : Type) (inst : LinearOrderedField E)
    (ef : S → E) (rng : ℕ → S → E → S) (start : S) (maxT : E) (steps : ℕ)
    (hsteps : 1 ≤ steps) :
    ∃ b, Annealer.anneal ef rng (Annealer.new ef start maxT) steps = some b.state ∧
      b ∈ drawnNeighbors ef rng steps (Annealer.new ef start maxT) 0 steps ∧
      b.energy = ef b.state ∧
      ∀ n ∈ drawnNeighbors ef rng steps (Annealer.new ef start maxT) 0 steps,
        ef b.state ≤ n.energy := by
  cases hb : Annealer.anneal_with_energy ef rng (Annealer.new ef start maxT) steps with
  | none =>
    have h0 := ((annealIter_best_spec ef rng steps steps 0 (Annealer.new ef start maxT)).2
      hb).2
    omega
  | some b =>
    obtain ⟨hmem, hall, _⟩ :=
      (annealIter_best_spec ef rng steps steps 0 (Annealer.new ef start maxT)).1 b hb
    have hmem' : b ∈ drawnNeighbors ef rng steps (Annealer.new ef start maxT) 0 steps := by
      rcases hmem with h | h
      · exact h
      · exact absurd (h : (none : Option (StateEnergy S E)) = some b)
          (fun hc => Option.noConfusion hc)
    have he : b.energy = ef b.state :=
      drawnNeighbors_energy ef rng steps steps 0 (Annealer.new ef start maxT) b hmem'
    refine ⟨b, ?_, hmem', he, ?_⟩
    · rw [Annealer.anneal, hb]
      rfl
    · intro n hn
      rw [← he]
      exact hall n hn

/-- C5 witness: the amended statement applied to a concrete one-step
run over `ℚ`, discharging the `1 ≤ steps` hypothesis. -/
theorem C5_witness :
    1 ≤ 1 ∧
    ∃ b, Annealer.anneal (id : ℚ → ℚ) exRngC5 (Annealer.new id 0 10) 1 = some b.state ∧
      b ∈ drawnNeighbors (id : ℚ → ℚ) exRngC5 1 (Annealer.new id 0 10) 0 1 ∧
      b.energy = id b.state ∧
      ∀ n ∈ drawnNeighbors (id : ℚ → ℚ) exRngC5 1 (Annealer.new id 0 10) 0 1,
        id b.state ≤ n.energy :=
  ⟨le_refl 1,
    C5_anneal_returns_best_drawn ℚ ℚ inferInstance id exRngC5 0 10 1 (le_refl 1)⟩

theorem rotatePoint_pi_div_two (o : Point2 ℝ) (p : Point2 ℤ) :
    rotatePoint o p (Real.pi / 2) =
      ⟨o.x - ((p.y : ℝ) - o.y), o.y + ((p.x : ℝ) - o.x)⟩ := by
  rw [rotatePoint]
  simp only [Real.cos_pi_div_two, Real.sin_pi_div_two]
  congr 1 <;> ring

theorem rotatePoint_neg_pi_div_two (o : Point2 ℝ) (p : Point2 ℤ) :
    rotatePoint o p (-(Real.pi / 2)) =
      ⟨o.x + ((p.y : ℝ) - o.y), o.y - ((p.x : ℝ) - o.x)⟩ := by
  rw [rotatePoint]
  simp only [Real.cos_neg, Real.sin_neg, Real.cos_pi_div_two, Real.sin_pi_div_two]
  congr 1 <;> ring

/-- A 2×2 all-black canvas used to separate the source's rotated
overlay from the claimed inverse-mapping algorithm. -/
def c4Canvas : LabImage := ⟨[⟨0, 0, 0⟩, ⟨0, 0, 0⟩, ⟨0, 0, 0⟩, ⟨0, 0, 0⟩], 2, 2⟩

/-- A 2×2 opaque overlay with pairwise distinct `l` channels. -/
def c4Overlay : LabaImage := ⟨[⟨1, 0, 0, 1⟩, ⟨2, 0, 0, 1⟩, ⟨3, 0, 0, 1⟩, ⟨4, 0, 0, 1⟩], 2, 2⟩

theorem c4_gm : globalMiddle (⟨2, 2⟩ : Point2 ℕ) ⟨0, 0⟩ = ⟨1, 1⟩ := by
  rw [globalMiddle]
  norm_num

theorem c4_bb : rotatedBB (⟨2, 2⟩ : Point2 ℕ) ⟨0, 0⟩ (Real.pi / 2) = (⟨0, 0⟩, ⟨2, 2⟩) := by
  rw [rotatedBB]
  simp only [c4_gm, rotatePoint_pi_div_two, Point2.add_def]
  simp only [Prod.mk.injEq, Point2.mk.injEq]
  norm_num

theorem c4_sample_code : rotSample (⟨2, 2⟩ : Point2 ℕ) ⟨0, 0⟩ (Real.pi / 2) ⟨1, 0⟩ =
    ⟨2, 1⟩ := by
  rw [rotSample]
  simp only [c4_gm, rotatePoint_pi_div_two]
  simp only [Point2.mk.injEq]
  norm_num [rustRound]

theorem c4_sample_spec : rotSampleSpec (⟨2, 2⟩ : Point2 ℕ) ⟨0, 0⟩ (Real.pi / 2) ⟨1, 0⟩ =
    ⟨0, 1⟩ := by
  rw [rotSampleSpec]
  simp only [c4_gm, rotatePoint_neg_pi_div_two]
  simp only [Point2.mk.injEq]
  norm_num [rustRound]

/-- C4 counterexample: at angle `π/2`, destination pixel `(1,0)` of a
2×2 canvas is left unchanged by the source's `overlay_rotated` (its
forward-rotated sample `(2,1)` lies outside the overlay), while the
claimed inverse-mapping algorithm samples `(0,1)` and blends the
overlay's `l = 3` pixel there: the source does NOT inverse-rotate the
destination coordinate, so the two algorithms produce different
canvases. -/
theorem C4_counterexample :
    (LabImage.overlay_rotated c4Canvas c4Overlay ⟨0, 0⟩ (Real.pi / 2)).get ⟨1, 0⟩ =
      some ⟨0, 0, 0⟩ ∧
    (overlayRotatedSpec c4Canvas c4Overlay ⟨0, 0⟩ (Real.pi / 2)).get ⟨1, 0⟩ =
      some ⟨3, 0, 0⟩ ∧
    LabImage.overlay_rotated c4Canvas c4Overlay ⟨0, 0⟩ (Real.pi / 2) ≠
      overlayRotatedSpec c4Canvas c4Overlay ⟨0, 0⟩ (Real.pi / 2) := by
  have hwf : c4Canvas.Wf := by decide
  have hsz : c4Overlay.size_point = (⟨2, 2⟩ : Point2 ℕ) := rfl
  have hcv : c4Canvas.get ⟨1, 0⟩ = some ⟨0, 0, 0⟩ := rfl
  have hnone : c4Overlay.get (⟨2, 1⟩ : Point2 ℤ) = none := rfl
  have hC : c4Overlay.get (⟨0, 1⟩ : Point2 ℤ) = some ⟨3, 0, 0, 1⟩ := rfl
  have hbet : between ⟨0, 0⟩ ⟨2, 2⟩ (⟨1, 0⟩ : Point2 ℤ) = true := rfl
  have h1 : (LabImage.overlay_rotated c4Canvas c4Overlay ⟨0, 0⟩ (Real.pi / 2)).get ⟨1, 0⟩ =
      some ⟨0, 0, 0⟩ := by
    rw [overlay_rotated_get c4Canvas c4Overlay ⟨0, 0⟩ (Real.pi / 2) hwf ⟨1, 0⟩, hcv]
    show some (rotStep c4Overlay ⟨0, 0⟩ (Real.pi / 2)
        (rotatedBB c4Overlay.size_point ⟨0, 0⟩ (Real.pi / 2)) ⟨1, 0⟩ ⟨0, 0, 0⟩) = _
    rw [rotStep, hsz, c4_bb, c4_sample_code, hnone, if_pos hbet]
  have h2 : (overlayRotatedSpec c4Canvas c4Overlay ⟨0, 0⟩ (Real.pi / 2)).get ⟨1, 0⟩ =
      some ⟨3, 0, 0⟩ := by
    rw [overlayRotatedSpec_get c4Canvas c4Overlay ⟨0, 0⟩ (Real.pi / 2) hwf ⟨1, 0⟩, hcv]
    show some (rotStepSpec c4Overlay ⟨0, 0⟩ (Real.pi / 2)
        (rotatedBB c4Overlay.size_point ⟨0, 0⟩ (Real.pi / 2)) ⟨1, 0⟩ ⟨0, 0, 0⟩) = _
    rw [rotStepSpec, hsz, c4_bb, c4_sample_spec, hC, if_pos hbet]
    show some (Lab.blend ⟨0, 0, 0⟩ ⟨3, 0, 0, 1⟩) = some ⟨3, 0, 0⟩
    rw [Lab.blend]
    norm_num
  refine ⟨h1, h2, ?_⟩
  intro heq
  rw [heq, h2] at h1
  have : (3 : ℝ) = 0 := congrArg Lab.l ((Option.some.injEq _ _).mp h1)
  norm_num at this

/-- C4 amended: `overlay_rotated` computes the rotated bounding box of
the placement rectangle's four corners and touches only destination pixels
inside it; for each such pixel it maps the destination coordinate by
the SAME rotation that was applied to the corners (not its inverse),
rounds to nearest, and samples the overlay there if in range, blending
onto the destination; all other pixels keep their value. -/
theorem C4_rotated_overlay_algorithm (self : LabImage) (other : LabaImage)
    (pos : Point2 ℤ) (angle : ℝ) (h1 : self.Wf) (p : Point2 ℤ) :
    (self.overlay_rotated other pos angle).get p =
      (self.get p).map (fun px =>
        if between (rotatedBB other.size_point pos angle).1
            (rotatedBB other.size_point pos angle).2 p then
          match other.get (rotSample other.size_point pos angle p) with
          | some other_pixel => px.blend other_pixel
          | none => px
        else px) ∧
    rotSample other.size_point pos angle p =
      ⟨rustRound (rotatePoint (globalMiddle other.size_point pos) p angle).x - pos.x,
       rustRound (rotatePoint (globalMiddle other.size_point pos) p angle).y - pos.y⟩ := by
  constructor
  · rw [overlay_rotated_get self other pos angle h1 p]
    rfl
  · rfl

/-- C4 witness: the algorithm characterization applied at a concrete
canvas, overlay, position and angle, discharging the well-formedness
hypothesis. -/
theorem C4_witness :
    c4Canvas.Wf ∧
    ((LabImage.overlay_rotated c4Canvas c4Overlay ⟨0, 0⟩ (Real.pi / 2)).get ⟨1, 0⟩ =
      (c4Canvas.get ⟨1, 0⟩).map (fun px =>
        if between (rotatedBB c4Overlay.size_point ⟨0, 0⟩ (Real.pi / 2)).1
            (rotatedBB c4Overlay.size_point ⟨0, 0⟩ (Real.pi / 2)).2 ⟨1, 0⟩ then
          match c4Overlay.get (rotSample c4Overlay.size_point ⟨0, 0⟩ (Real.pi / 2) ⟨1, 0⟩) with
          | some other_pixel => px.blend other_pixel
          | none => px
        else px) ∧
      rotSample c4Overlay.size_point ⟨0, 0⟩ (Real.pi / 2) ⟨1, 0⟩ =
        ⟨rustRound (rotatePoint (globalMiddle c4Overlay.size_point ⟨0, 0⟩) ⟨1, 0⟩
            (Real.pi / 2)).x - (0 : ℤ),
         rustRound (rotatePoint (globalMiddle c4Overlay.size_point ⟨0, 0⟩) ⟨1, 0⟩
            (Real.pi / 2)).y - (0 : ℤ)⟩) :=
  ⟨by decide,
    C4_rotated_overlay_algorithm c4Canvas c4Overlay ⟨0, 0⟩ (Real.pi / 2) (by decide) ⟨1, 0⟩⟩

/-- Modelled from the spec (for comparison with the source): the
claimed pixel offset `round(norm · canvasSize)`, clamped per axis to
`[0, max(canvasSize - overlaySize, 0)]`. -/
noncomputable def positionOffsetClaim (pos : Point2 ℝ) (size addSize : Point2 ℕ) :
    Point2 ℤ :=
  ⟨clampZ (round (pos.x * (size.x : ℝ))) 0 (max ((size.x : ℤ) - (addSize.x : ℤ)) 0),
   clampZ (round (pos.y * (size.y : ℝ))) 0 (max ((size.y : ℤ) - (addSize.y : ℤ)) 0)⟩

/-- C6 counterexample: at normalized x = 0.27 on a 10-wide canvas with
a 1-wide overlay, the source truncates 2.7 to offset 2 (Rust `as i32`),
while the claimed `round` gives offset 3. -/
theorem C6_counterexample :
    PositionParam.targetPosition ⟨27 / 100, 0⟩ ⟨10, 5⟩ ⟨1, 1⟩ = ⟨2, 0⟩ ∧
    positionOffsetClaim ⟨27 / 100, 0⟩ ⟨10, 5⟩ ⟨1, 1⟩ = ⟨3, 0⟩ ∧
    PositionParam.targetPosition ⟨27 / 100, 0⟩ ⟨10, 5⟩ ⟨1, 1⟩ ≠
      positionOffsetClaim ⟨27 / 100, 0⟩ ⟨10, 5⟩ ⟨1, 1⟩ := by
  have h1 : PositionParam.targetPosition ⟨27 / 100, 0⟩ ⟨10, 5⟩ ⟨1, 1⟩ = ⟨2, 0⟩ := by
    rw [PositionParam.targetPosition]
    simp only [Point2.mk.injEq]
    norm_num [asI32, clampZ]
  have h2 : positionOffsetClaim ⟨27 / 100, 0⟩ ⟨10, 5⟩ ⟨1, 1⟩ = ⟨3, 0⟩ := by
    rw [positionOffsetClaim]
    simp only [Point2.mk.injEq]
    norm_num [round_eq, clampZ]
  refine ⟨h1, h2, ?_⟩
  intro heq
  rw [h1, h2] at heq
  have : (2 : ℤ) = 3 := congrArg Point2.x heq
  omega

/-- C6 amended: applying the position parameter converts the normalized
position to the pixel offset `trunc(norm · canvasSize)` (Rust `as i32`
truncation toward zero — NOT rounding to nearest), clamps it per axis
to `[0, max(canvasSize - overlaySize, 0)]`, and composites the staged
overlay onto the canvas with `overlay_rotated` at that offset using the
staged angle. -/
theorem C6_position_apply (p : PositionParam) (state : ImageState)
    (add_image : LabaImage) (angle : ℝ) (h1 : state.add_image = some add_image)
    (h2 : state.angle = some angle) :
    PositionParam.apply p state = some
      { image := state.image.overlay_rotated add_image
          (PositionParam.targetPosition p.val state.image.size_point add_image.size_point)
          angle,
        add_image := none,
        angle := state.angle } ∧
    ∀ (pos : Point2 ℝ) (size addSize : Point2 ℕ),
      PositionParam.targetPosition pos size addSize =
        ⟨clampZ (asI32 (pos.x * (size.x : ℝ))) 0 (max ((size.x : ℤ) - (addSize.x : ℤ)) 0),
         clampZ (asI32 (pos.y * (size.y : ℝ))) 0 (max ((size.y : ℤ) - (addSize.y : ℤ)) 0)⟩ := by
  constructor
  · simp only [PositionParam.apply, h1, h2]
  · intro pos size addSize
    rfl

/-- C6 witness: the position application at a concrete staged state,
discharging both staging hypotheses. -/
theorem C6_witness :
    (⟨c4Canvas, some c4Overlay, some 0⟩ : ImageState).add_image = some c4Overlay ∧
    (⟨c4Canvas, some c4Overlay, some 0⟩ : ImageState).angle = some 0 ∧
    (PositionParam.apply ⟨⟨27 / 100, 0⟩⟩ ⟨c4Canvas, some c4Overlay, some 0⟩ = some
      { image := c4Canvas.overlay_rotated c4Overlay
          (PositionParam.targetPosition ⟨27 / 100, 0⟩ c4Canvas.size_point
            c4Overlay.size_point) 0,
        add_image := none,
        angle := some 0 } ∧
    ∀ (pos : Point2 ℝ) (size addSize : Point2 ℕ),
      PositionParam.targetPosition pos size addSize =
        ⟨clampZ (asI32 (pos.x * (size.x : ℝ))) 0 (max ((size.x : ℤ) - (addSize.x : ℤ)) 0),
         clampZ (asI32 (pos.y * (size.y : ℝ))) 0
           (max ((size.y : ℤ) - (addSize.y : ℤ)) 0)⟩) :=
  ⟨rfl, rfl, C6_position_apply ⟨⟨27 / 100, 0⟩⟩ ⟨c4Canvas, some c4Overlay, some 0⟩
    c4Overlay 0 rfl rfl⟩

theorem anneal_with_energy_isSome [LinearOrderedField E] (ef : S → E) (rng : ℕ → S → E → S)
    (a : Annealer S E) (steps : ℕ) (h : 1 ≤ steps) :
    ∃ b, Annealer.anneal_with_energy ef rng a steps = some b := by
  cases hb : Annealer.anneal_with_energy ef rng a steps with
  | none =>
    have h0 := ((annealIter_best_spec ef rng steps steps 0 a).2 hb).2
    omega
  | some b => exact ⟨b, rfl⟩

/-- Constant background-draw oracle. -/
def bgDraws0 : ℕ → ℝ × ℝ × ℝ := fun _ => (0, 0, 0)

/-- Constant params-draw oracle. -/
def ds0 : ℕ → ℕ → ParamsDraws := fun _ _ => ⟨0, 0, 0, 0, 0, 0, 0, 0, 0, 0⟩

/-- Constant chain-draw oracle. -/
def rngs0 : ℕ → ℕ → ℕ → ChainDraws := fun _ _ _ => ⟨0, 0, 0, 0, 0, 0, 0, 0, 0, 0, 0⟩

/-- Config with `steps = 1`, `amount = 0`, `starts = 1`. -/
def cfgC3 : CollagerConfig := ⟨1, 0, 1, 1, false, false, false, false, false⟩

/-- A 1×1 black target image. -/
def c3Image : LabImage := ⟨[⟨0, 0, 0⟩], 1, 1⟩

/-- C3 counterexample: with an empty overlay library but `amount = 0`
(and `steps = 1`), `Collager::collage` does not fail at all — it runs
the background annealing pass and returns successfully, refuting the
claim that an empty library makes the driver fail before any annealing
step executes. -/
theorem C3_counterexample :
    (Collager.collage cfgC3 c3Image [] ⟨0, 0, 0⟩ bgDraws0 ds0 rngs0).isOk = true := by
  obtain ⟨b, hb⟩ := anneal_with_energy_isSome (backgroundEnergy c3Image)
    (fun k c t => backgroundNeighbor c (bgDraws0 k) t)
    (Annealer.new (backgroundEnergy c3Image) ⟨0, 0, 0⟩ 30) cfgC3.steps (le_refl 1)
  simp only [Collager.collage, Annealer.anneal, hb, Option.map_some]
  rfl

theorem exceptBind_ok (x : α) (f : α → Except ε β) : (Except.ok x >>= f) = f x := rfl

theorem exceptBind_error (e : ε) (f : α → Except ε β) :
    ((Except.error e : Except ε α) >>= f) = Except.error e := rfl

/-- C3 amended: with an empty overlay library, `collage` does not fail
before the background pass.  With `steps = 0` it fails inside the
background annealer (`zeroSteps`) before the library is ever touched;
with `steps ≥ 1` and `amount = 0` it succeeds despite the empty
library; and only with `steps ≥ 1`, `amount ≥ 1`, `starts ≥ 1` does it
fail — with the empty-range panic of `IndexParam::random`
(`emptyRange`), at the first layer iteration, after the background
annealing pass has completed. -/
theorem C3_empty_library_behavior (cfg : CollagerConfig) (image : LabImage) (bgInit : Lab)
    (bgDraws : ℕ → ℝ × ℝ × ℝ) (ds : ℕ → ℕ → ParamsDraws)
    (rngs : ℕ → ℕ → ℕ → ChainDraws) :
    (cfg.steps = 0 →
      Collager.collage cfg image [] bgInit bgDraws ds rngs =
        .error CollageError.zeroSteps) ∧
    (1 ≤ cfg.steps → cfg.amount = 0 →
      (Collager.collage cfg image [] bgInit bgDraws ds rngs).isOk = true) ∧
    (1 ≤ cfg.steps → 1 ≤ cfg.amount → 1 ≤ cfg.starts →
      Collager.collage cfg image [] bgInit bgDraws ds rngs =
        .error CollageError.emptyRange) := by
  refine ⟨?_, ?_, ?_⟩
  · intro h0
    simp only [Collager.collage, h0]
    rfl
  · intro h1 h2
    obtain ⟨b, hb⟩ := anneal_with_energy_isSome (backgroundEnergy image)
      (fun k c t => backgroundNeighbor c (bgDraws k) t)
      (Annealer.new (backgroundEnergy image) bgInit 30) cfg.steps h1
    simp only [Collager.collage, Annealer.anneal, hb, Option.map_some, h2]
    rfl
  · intro h1 h2 h3
    obtain ⟨b, hb⟩ := anneal_with_energy_isSome (backgroundEnergy image)
      (fun k c t => backgroundNeighbor c (bgDraws k) t)
      (Annealer.new (backgroundEnergy image) bgInit 30) cfg.steps h1
    obtain ⟨m, hm⟩ : ∃ m, cfg.amount = m + 1 := ⟨cfg.amount - 1, by omega⟩
    obtain ⟨s, hs⟩ : ∃ s, cfg.starts = s + 1 := ⟨cfg.starts - 1, by omega⟩
    have hone : ∀ d rng, annealOne cfg image (backgroundApplied image b.state) [] d rng =
        .error CollageError.emptyRange := by
      intro d rng
      simp only [annealOne, paramsRandom, List.length_nil, if_pos rfl]
      rfl
    have hstarts : annealStarts cfg image (backgroundApplied image b.state) [] (ds 0)
        (rngs 0) = .error CollageError.emptyRange := by
      simp only [annealStarts, hs, List.range_succ_eq_map, List.mapM_cons, hone,
        exceptBind_error]
    have hlayers : collageLayers cfg image [] ds rngs 0 cfg.amount
        (backgroundApplied image b.state) = .error CollageError.emptyRange := by
      rw [hm]
      simp only [collageLayers, hstarts, exceptBind_error]
    simp only [Collager.collage, Annealer.anneal, hb, Option.map_some, Option.map_some',
      exceptBind_ok, hlayers, exceptBind_error]

/-- Config with `steps = 1`, `amount = 1`, `starts = 1`. -/
def cfgC3b : CollagerConfig := ⟨1, 1, 1, 1, false, false, false, false, false⟩

/-- C3 witness: the empty-library behavior applied at a concrete
configuration with one layer and one restart, discharging the
hypotheses. -/
theorem C3_witness :
    1 ≤ cfgC3b.steps ∧ 1 ≤ cfgC3b.amount ∧ 1 ≤ cfgC3b.starts ∧
    Collager.collage cfgC3b c3Image [] ⟨0, 0, 0⟩ bgDraws0 ds0 rngs0 =
      .error CollageError.emptyRange :=
  ⟨le_refl 1, le_refl 1, le_refl 1,
    (C3_empty_library_behavior cfgC3b c3Image ⟨0, 0, 0⟩ bgDraws0 ds0 rngs0).2.2
      (le_refl 1) (le_refl 1) (le_refl 1)⟩

/-- C7 amended: the per-pixel error reported at the end of
`Collager::collage` is the sum over pixel pairs of the SQUARE ROOT of
the Lab distance, divided by the pixel count — `SQRT_DISTANCE` is true,
so `image_difference` square-roots each distance — not the sum of the
distances themselves. -/
theorem C7_reported_error (cfg : CollagerConfig) (image : LabImage)
    (images : List LabaImage) (bgInit : Lab) (bgDraws : ℕ → ℝ × ℝ × ℝ)
    (ds : ℕ → ℕ → ParamsDraws) (rngs : ℕ → ℕ → ℕ → ChainDraws) (out : LabImage) (e : ℝ)
    (h : Collager.collage cfg image images bgInit bgDraws ds rngs = .ok (out, e)) :
    e = ((image.pixels.zip out.pixels).map
        (fun pr => Real.sqrt (pr.1.distance pr.2))).sum /
      ((image.width * image.height : ℕ) : ℝ) ∧
    e = image_difference image.pixels out.pixels /
      ((image.width * image.height : ℕ) : ℝ) := by
  have key : e = image_difference image.pixels out.pixels /
      ((image.width * image.height : ℕ) : ℝ) := by
    simp only [Collager.collage] at h
    cases hbg : Annealer.anneal (backgroundEnergy image)
        (fun k c t => backgroundNeighbor c (bgDraws k) t)
        (Annealer.new (backgroundEnergy image) bgInit 30) cfg.steps with
    | none =>
      rw [hbg] at h
      exact Except.noConfusion
        (show (Except.error CollageError.zeroSteps :
          Except CollageError (LabImage × ℝ)) = Except.ok (out, e) from h)
    | some color =>
      rw [hbg] at h
      replace h : (do
          let output ← collageLayers cfg image images ds rngs 0 cfg.amount
            (backgroundApplied image color)
          pure (output, image_difference image.pixels output.pixels /
            ((image.width * image.height : ℕ) : ℝ)) :
          Except CollageError (LabImage × ℝ)) = Except.ok (out, e) := h
      cases hl : collageLayers cfg image images ds rngs 0 cfg.amount
          (backgroundApplied image color) with
      | error err =>
        rw [hl] at h
        exact Except.noConfusion
          (show (Except.error err : Except CollageError (LabImage × ℝ)) =
            Except.ok (out, e) from h)
      | ok o =>
        rw [hl] at h
        have h2 : (o, image_difference image.pixels o.pixels /
            ((image.width * image.height : ℕ) : ℝ)) = (out, e) := Except.ok.inj h
        have ho : o = out := congrArg Prod.fst h2
        have he : image_difference image.pixels o.pixels /
            ((image.width * image.height : ℕ) : ℝ) = e := congrArg Prod.snd h2
        rw [← he, ho]
  refine ⟨?_, key⟩
  rw [key, image_difference]
  rfl

/-- A 1×1 target image whose pixel is at Lab distance 4 from black. -/
def c7Image : LabImage := ⟨[⟨4, 0, 0⟩], 1, 1⟩

theorem c7_background : Annealer.anneal (backgroundEnergy c7Image)
    (fun k c t => backgroundNeighbor c (bgDraws0 k) t)
    (Annealer.new (backgroundEnergy c7Image) ⟨0, 0, 0⟩ 30) cfgC3.steps =
    some ⟨0, 0, 0⟩ := by
  norm_num [Annealer.anneal, Annealer.anneal_with_energy, annealIter, Annealer.improve,
    Annealer.new, StateEnergy.new, Annealer.temperature, backgroundNeighbor, floatChanged,
    bgDraws0, cfgC3, Lab.mk.injEq]

theorem c7_error_value : image_difference c7Image.pixels
    (backgroundApplied c7Image ⟨0, 0, 0⟩).pixels = 2 := by
  show ((([(⟨4, 0, 0⟩ : Lab)]).zip (List.replicate (1 * 1) (⟨0, 0, 0⟩ : Lab))).map _).sum = 2
  rw [show List.replicate (1 * 1) (⟨0, 0, 0⟩ : Lab) = [⟨0, 0, 0⟩] from rfl]
  show (if SQRT_DISTANCE then Real.sqrt (Lab.distance ⟨4, 0, 0⟩ ⟨0, 0, 0⟩)
      else Lab.distance ⟨4, 0, 0⟩ ⟨0, 0, 0⟩) + 0 = 2
  rw [if_pos (show SQRT_DISTANCE = true from rfl), add_zero, Lab.distance]
  have h16 : ((4 : ℝ) - 0) ^ 2 + ((0 : ℝ) - 0) ^ 2 + ((0 : ℝ) - 0) ^ 2 = 4 ^ 2 := by
    norm_num
  rw [h16, Real.sqrt_sq (by norm_num : (0 : ℝ) ≤ 4),
    show (4 : ℝ) = 2 ^ 2 by norm_num, Real.sqrt_sq (by norm_num : (0 : ℝ) ≤ 2)]

/-- The concrete run shared by the C7 counterexample and witness: with
a 1×1 target at Lab distance 4 from black, zero layers and one
background step (temperature 0, so the background stays black), collage
reports per-pixel error 2 = sqrt(4). -/
theorem c7_collage_eval :
    Collager.collage cfgC3 c7Image [] ⟨0, 0, 0⟩ bgDraws0 ds0 rngs0 =
      .ok (backgroundApplied c7Image ⟨0, 0, 0⟩, 2) := by
  simp only [Collager.collage, c7_background]
  show (do
      let output ← collageLayers cfgC3 c7Image [] ds0 rngs0 0 cfgC3.amount
        (backgroundApplied c7Image ⟨0, 0, 0⟩)
      pure (output, image_difference c7Image.pixels output.pixels /
        ((c7Image.width * c7Image.height : ℕ) : ℝ)) :
      Except CollageError (LabImage × ℝ)) = _
  rw [show collageLayers cfgC3 c7Image [] ds0 rngs0 0 cfgC3.amount
      (backgroundApplied c7Image ⟨0, 0, 0⟩) =
      Except.ok (backgroundApplied c7Image ⟨0, 0, 0⟩) from rfl, exceptBind_ok]
  rw [c7_error_value]
  show Except.ok (backgroundApplied c7Image ⟨0, 0, 0⟩,
    (2 : ℝ) / ((c7Image.width * c7Image.height : ℕ) : ℝ)) = _
  norm_num [c7Image]

/-- C7 counterexample: the concrete run reports per-pixel error 2,
while the claimed value — the sum of Lab distances (the true Euclidean
norm, per the spec's color model) divided by the pixel count — is 4:
the code square-roots each distance before summing. -/
theorem C7_counterexample :
    Collager.collage cfgC3 c7Image [] ⟨0, 0, 0⟩ bgDraws0 ds0 rngs0 =
      .ok (backgroundApplied c7Image ⟨0, 0, 0⟩, 2) ∧
    ((c7Image.pixels.zip (backgroundApplied c7Image ⟨0, 0, 0⟩).pixels).map
        (fun pr => pr.1.distance pr.2)).sum /
      ((c7Image.width * c7Image.height : ℕ) : ℝ) = 4 ∧
    (2 : ℝ) ≠ 4 := by
  refine ⟨c7_collage_eval, ?_, by norm_num⟩
  show (Lab.distance ⟨4, 0, 0⟩ ⟨0, 0, 0⟩ + 0) / ((1 * 1 : ℕ) : ℝ) = 4
  rw [add_zero, Lab.distance]
  have h16 : ((4 : ℝ) - 0) ^ 2 + ((0 : ℝ) - 0) ^ 2 + ((0 : ℝ) - 0) ^ 2 = 4 ^ 2 := by
    norm_num
  rw [h16, Real.sqrt_sq (by norm_num : (0 : ℝ) ≤ 4)]
  norm_num

/-- C7 witness: the reported-error characterization applied to the
concrete run, discharging the success hypothesis. -/
theorem C7_witness :
    Collager.collage cfgC3 c7Image [] ⟨0, 0, 0⟩ bgDraws0 ds0 rngs0 =
      .ok (backgroundApplied c7Image ⟨0, 0, 0⟩, 2) ∧
    ((2 : ℝ) = ((c7Image.pixels.zip (backgroundApplied c7Image ⟨0, 0, 0⟩).pixels).map
        (fun pr => Real.sqrt (pr.1.distance pr.2))).sum /
      ((c7Image.width * c7Image.height : ℕ) : ℝ) ∧
    (2 : ℝ) = image_difference c7Image.pixels
        (backgroundApplied c7Image ⟨0, 0, 0⟩).pixels /
      ((c7Image.width * c7Image.height : ℕ) : ℝ)) :=
  ⟨c7_collage_eval, C7_reported_error cfgC3 c7Image [] ⟨0, 0, 0⟩ bgDraws0 ds0 rngs0
    (backgroundApplied c7Image ⟨0, 0, 0⟩) 2 c7_collage_eval⟩
